import Mathlib

/-!
Verification of the seaclaw agent runtime core against its specification.

The development shallowly embeds the C sources: the cJSON data model and its
printer/parser (the library the repository uses for all JSON handling), the
session store (`src/session.c`), the agent turn loop (`src/main.c`), the two
provider streaming state machines (`src/provider.c`, `src/provider_openai.c`),
the cron scheduler (`src/cron.c`), and the WebSocket handshake accept-key
computation (`src/ws.c`, with SHA-1 and base64 as used there).
-/

namespace Seaclaw

/-- JSON values as held by cJSON. Numbers are modelled as integers (the
sessions and streams under verification only ever carry integral numbers). -/
inductive Json where
  | null : Json
  | bool : Bool → Json
  | num : Int → Json
  | str : String → Json
  | arr : List Json → Json
  | obj : List (String × Json) → Json

/-- ASCII lower-casing of one character, as C `tolower` on the ASCII range. -/
def asciiLower (c : Char) : Char :=
  if 65 ≤ c.toNat ∧ c.toNat ≤ 90 then Char.ofNat (c.toNat + 32) else c

/-- Case-insensitive string comparison, as cJSON `case_insensitive_strcmp`. -/
def ciEq (a b : String) : Bool :=
  a.toList.map asciiLower = b.toList.map asciiLower

/-- Object member lookup, as `cJSON_GetObjectItem` (case-insensitive, first
match); returns `none` on non-objects. -/
def jsonGet : Json → String → Option Json
  | .obj kvs, k => (kvs.find? (fun kv => ciEq kv.1 k)).map (·.2)
  | _, _ => none

/-- The `valueint` field of a cJSON item: its integer value for numbers,
zero for every other kind of item. -/
def jsonInt : Json → Int
  | .num n => n
  | _ => 0

/-- Hexadecimal digit characters, lower case (as cJSON's `\u%04x`). -/
def hexDigitCh (n : Nat) : Char :=
  if n < 10 then Char.ofNat (48 + n) else Char.ofNat (87 + n % 16)

/-- Escape one character of a JSON string, as cJSON `print_string_ptr`:
quote, backslash and the named control characters get two-character escapes,
all other characters below 32 become `\u00xx`, everything else is copied. -/
def escChar (c : Char) : List Char :=
  if c = '"' then ['\\', '"']
  else if c = '\\' then ['\\', '\\']
  else if c = Char.ofNat 8 then ['\\', 'b']
  else if c = Char.ofNat 12 then ['\\', 'f']
  else if c = '\n' then ['\\', 'n']
  else if c = Char.ofNat 13 then ['\\', 'r']
  else if c = '\t' then ['\\', 't']
  else if c.toNat < 32 then
    ['\\', 'u', '0', '0', hexDigitCh (c.toNat / 16), hexDigitCh (c.toNat % 16)]
  else [c]

/-- Escape a whole string body. -/
def escStr (cs : List Char) : List Char :=
  cs.foldr (fun c acc => escChar c ++ acc) []

/-- Print a quoted JSON string. -/
def quoteStr (s : String) : List Char :=
  '"' :: escStr s.toList ++ ['"']

/-- Decimal digits of a natural number, accumulator form. -/
def natCharsAux : Nat → List Char → List Char
  | 0, acc => acc
  | n + 1, acc =>
      natCharsAux ((n + 1) / 10) (Char.ofNat (48 + (n + 1) % 10) :: acc)
decreasing_by exact Nat.div_lt_self (Nat.succ_pos n) (by omega)

/-- Decimal representation of a natural number. -/
def natChars (n : Nat) : List Char :=
  if n = 0 then ['0'] else natCharsAux n []

/-- Decimal representation of an integer, as cJSON prints integral numbers. -/
def intChars (i : Int) : List Char :=
  if i < 0 then '-' :: natChars i.natAbs else natChars i.natAbs

/-- Repeated tab characters, for cJSON's formatted indentation. -/
def tabs (d : Nat) : List Char := List.replicate d '\t'

mutual

/-- Formatted printing, as `cJSON_Print`: `d` is the buffer depth before the
item is printed. Objects open with a newline, indent each member with tabs,
and put a tab after the colon; arrays separate elements with `, `. -/
def printAt (d : Nat) : Json → List Char
  | .null => 'n' :: ['u', 'l', 'l']
  | .bool true => 't' :: ['r', 'u', 'e']
  | .bool false => 'f' :: ['a', 'l', 's', 'e']
  | .num i => intChars i
  | .str s => quoteStr s
  | .arr xs => '[' :: printElems d xs ++ [']']
  | .obj kvs => '{' :: '\n' :: printMembers (d + 1) kvs ++ tabs d ++ ['}']
termination_by v => sizeOf v

/-- Formatted printing of array elements: a `, ` separator follows every
element that has a successor. -/
def printElems (d : Nat) : List Json → List Char
  | [] => []
  | x :: xs =>
      printAt (d + 1) x ++ (if xs.isEmpty then [] else [',', ' ']) ++ printElems d xs
termination_by l => sizeOf l

/-- Formatted printing of object members at member depth `d`. -/
def printMembers (d : Nat) : List (String × Json) → List Char
  | [] => []
  | (k, v) :: kvs =>
      tabs d ++ quoteStr k ++ ':' :: '\t' :: printAt d v
        ++ (if kvs.isEmpty then [] else [',']) ++ '\n' :: printMembers d kvs
termination_by l => sizeOf l

end

mutual

/-- Unformatted printing, as `cJSON_PrintUnformatted`. -/
def printU : Json → List Char
  | .null => 'n' :: ['u', 'l', 'l']
  | .bool true => 't' :: ['r', 'u', 'e']
  | .bool false => 'f' :: ['a', 'l', 's', 'e']
  | .num i => intChars i
  | .str s => quoteStr s
  | .arr xs => '[' :: printUElems xs ++ [']']
  | .obj kvs => '{' :: printUMembers kvs ++ ['}']
termination_by v => sizeOf v

/-- Unformatted printing of array elements. -/
def printUElems : List Json → List Char
  | [] => []
  | x :: xs => printU x ++ (if xs.isEmpty then [] else [',']) ++ printUElems xs
termination_by l => sizeOf l

/-- Unformatted printing of object members. -/
def printUMembers : List (String × Json) → List Char
  | [] => []
  | (k, v) :: kvs =>
      quoteStr k ++ ':' :: printU v ++ (if kvs.isEmpty then [] else [',']) ++ printUMembers kvs
termination_by l => sizeOf l

end

/-- String form of the formatted printer (`cJSON_Print` of a top level item,
buffer depth 0). -/
def printJson (v : Json) : String := String.mk (printAt 0 v)

/-- String form of the unformatted printer. -/
def printJsonU (v : Json) : String := String.mk (printU v)

/-- Whitespace skipping, as cJSON `buffer_skip_whitespace`: any character
with code at most 32 is skipped. -/
def skipWs : List Char → List Char
  | [] => []
  | c :: cs => if c.toNat ≤ 32 then skipWs cs else c :: cs

/-- Value of a hexadecimal digit character, if it is one. -/
def hexVal (c : Char) : Option Nat :=
  if 48 ≤ c.toNat ∧ c.toNat ≤ 57 then some (c.toNat - 48)
  else if 97 ≤ c.toNat ∧ c.toNat ≤ 102 then some (c.toNat - 87)
  else if 65 ≤ c.toNat ∧ c.toNat ≤ 70 then some (c.toNat - 55)
  else none

/-- Decode a two-character escape body, as cJSON `parse_string`. -/
def unescChar (c : Char) : Option Char :=
  if c = '"' then some '"'
  else if c = '\\' then some '\\'
  else if c = '/' then some '/'
  else if c = 'b' then some (Char.ofNat 8)
  else if c = 'f' then some (Char.ofNat 12)
  else if c = 'n' then some '\n'
  else if c = 'r' then some (Char.ofNat 13)
  else if c = 't' then some '\t'
  else none

/-- Parse the body of a JSON string after the opening quote, returning the
decoded characters and the input after the closing quote. -/
def parseStrChars : List Char → Option (List Char × List Char)
  | [] => none
  | c :: rest =>
    if c = '"' then some ([], rest)
    else if c = '\\' then
      match rest with
      | [] => none
      | e :: rest2 =>
        if e = 'u' then
          match rest2 with
          | a :: b :: c2 :: d :: rest3 =>
            match hexVal a, hexVal b, hexVal c2, hexVal d with
            | some ha, some hb, some hc, some hd =>
              (parseStrChars rest3).map
                (fun p => (Char.ofNat (((ha * 16 + hb) * 16 + hc) * 16 + hd) :: p.1, p.2))
            | _, _, _, _ => none
          | _ => none
        else
          match unescChar e with
          | some u => (parseStrChars rest2).map (fun p => (u :: p.1, p.2))
          | none => none
    else (parseStrChars rest).map (fun p => (c :: p.1, p.2))

/-- Whether a character is a decimal digit. -/
def isDigitCh (c : Char) : Bool := 48 ≤ c.toNat ∧ c.toNat ≤ 57

/-- Consume a run of decimal digits, extending the accumulator. -/
def parseDigits : List Char → Nat → Nat × List Char
  | [], acc => (acc, [])
  | c :: cs, acc =>
    if isDigitCh c then parseDigits cs (acc * 10 + (c.toNat - 48))
    else (acc, c :: cs)

/-- Expect a literal run of characters. -/
def dropLit : List Char → List Char → Option (List Char)
  | [], s => some s
  | _, [] => none
  | l :: ls, c :: cs => if c = l then dropLit ls cs else none

mutual

/-- Fuelled JSON value parser modelling `cJSON_Parse`: skip whitespace, then
dispatch on the first character. The fuel bounds the recursion. -/
def parseValue : Nat → List Char → Option (Json × List Char)
  | 0, _ => none
  | fuel + 1, s =>
    match skipWs s with
    | [] => none
    | c :: rest =>
      if c = 'n' then (dropLit ['u', 'l', 'l'] rest).map (fun r => (.null, r))
      else if c = 't' then (dropLit ['r', 'u', 'e'] rest).map (fun r => (.bool true, r))
      else if c = 'f' then (dropLit ['a', 'l', 's', 'e'] rest).map (fun r => (.bool false, r))
      else if c = '"' then (parseStrChars rest).map (fun p => (.str (String.mk p.1), p.2))
      else if c = '-' then
        match rest with
        | d :: ds =>
          if isDigitCh d then
            let p := parseDigits (d :: ds) 0
            some (.num (-(p.1 : Int)), p.2)
          else none
        | [] => none
      else if isDigitCh c then
        let p := parseDigits (c :: rest) 0
        some (.num (p.1 : Int), p.2)
      else if c = '[' then
        match skipWs rest with
        | [] => (parseItems fuel []).map (fun p => (.arr p.1, p.2))
        | c2 :: r2 =>
          if c2 = ']' then some (.arr [], r2)
          else (parseItems fuel (c2 :: r2)).map (fun p => (.arr p.1, p.2))
      else if c = '{' then
        match skipWs rest with
        | [] => (parseMembers fuel []).map (fun p => (.obj p.1, p.2))
        | c2 :: r2 =>
          if c2 = '}' then some (.obj [], r2)
          else (parseMembers fuel (c2 :: r2)).map (fun p => (.obj p.1, p.2))
      else none

/-- Parse the elements of a non-empty array body. -/
def parseItems : Nat → List Char → Option (List Json × List Char)
  | 0, _ => none
  | fuel + 1, s =>
    match parseValue fuel s with
    | none => none
    | some (v, r) =>
      match skipWs r with
      | [] => none
      | c :: r2 =>
        if c = ',' then (parseItems fuel r2).map (fun p => (v :: p.1, p.2))
        else if c = ']' then some ([v], r2)
        else none

/-- Parse the members of a non-empty object body. -/
def parseMembers : Nat → List Char → Option (List (String × Json) × List Char)
  | 0, _ => none
  | fuel + 1, s =>
    match skipWs s with
    | [] => none
    | c :: r =>
      if c = '"' then
        match parseStrChars r with
        | none => none
        | some (k, r1) =>
          match skipWs r1 with
          | [] => none
          | c2 :: r2 =>
            if c2 = ':' then
              match parseValue fuel r2 with
              | none => none
              | some (v, r3) =>
                match skipWs r3 with
                | [] => none
                | c3 :: r4 =>
                  if c3 = ',' then
                    (parseMembers fuel r4).map (fun p => ((String.mk k, v) :: p.1, p.2))
                  else if c3 = '}' then some ([(String.mk k, v)], r4)
                  else none
            else none
      else none

end

/-- Top level parse, as `cJSON_Parse`: the whole input need not be consumed
(cJSON stops after the first complete value). -/
def parseJson (s : String) : Option Json :=
  (parseValue (s.toList.length + 1) s.toList).map (·.1)

mutual

/-- Fuel sufficient for `parseValue` to parse this value back. -/
def jsonFuel : Json → Nat
  | .null => 1
  | .bool _ => 1
  | .num _ => 1
  | .str _ => 1
  | .arr xs => 1 + fuelItems xs
  | .obj kvs => 1 + fuelMembers kvs
termination_by v => sizeOf v

/-- Fuel sufficient for `parseItems` on a printed element list. -/
def fuelItems : List Json → Nat
  | [] => 0
  | x :: xs => 1 + max (jsonFuel x) (fuelItems xs)
termination_by l => sizeOf l

/-- Fuel sufficient for `parseMembers` on a printed member list. -/
def fuelMembers : List (String × Json) → Nat
  | [] => 0
  | (_, v) :: kvs => 1 + max (jsonFuel v) (fuelMembers kvs)
termination_by l => sizeOf l

end

/-- A trailing input is safe after a printed value when it does not start
with a digit (so that a printed number is not extended). -/
def restSafe (rest : List Char) : Prop :=
  ∀ c, rest.head? = some c → isDigitCh c = false

/-- Characters that may start a printed JSON value. -/
def starter (c : Char) : Prop :=
  c = 'n' ∨ c = 't' ∨ c = 'f' ∨ c = '"' ∨ c = '-' ∨ isDigitCh c = true ∨ c = '[' ∨ c = '{'

/-- A list of whitespace (code at most 32) characters. -/
def allWs (w : List Char) : Prop := ∀ c ∈ w, c.toNat ≤ 32

/-- Numeric value of a digit-character run, accumulator form. -/
def valDigits (cs : List Char) (acc : Nat) : Nat :=
  cs.foldl (fun a c => a * 10 + (c.toNat - 48)) acc

/-! ### The session store (`src/session.c`) -/

/-- A session: the cJSON array of messages held by `Session.messages`. The
file path plays no part in the in-memory behaviour; persistence is modelled
by `sessionSaveStr`/`sessionLoadStr`. -/
structure Session where
  messages : List Json

/-- `session_new` when no session file exists (or `session_id` is null):
an empty message array. -/
def sessionNewEmpty : Session := ⟨[]⟩

/-- `session_new` replaying an existing file body: the loaded document is
adopted only when it parses as a JSON array. -/
def sessionLoadStr (content : String) : Session :=
  match parseJson content with
  | some (.arr l) => ⟨l⟩
  | _ => ⟨[]⟩

/-- `session_save`: the document written to disk is `cJSON_Print` (formatted)
of the message array. -/
def sessionSaveStr (s : Session) : String :=
  printJson (Json.arr s.messages)

/-- `session_messages_json`: `cJSON_PrintUnformatted` of the message array. -/
def sessionMessagesJson (s : Session) : String :=
  printJsonU (Json.arr s.messages)

/-- The message built by `session_add_user`. -/
def userMsgJson (text : String) : Json :=
  .obj [("role", .str "user"), ("content", .str text)]

/-- The message built by `session_add_assistant`: a single text block. -/
def assistantTextMsg (text : String) : Json :=
  .obj [("role", .str "assistant"),
    ("content", .arr [.obj [("type", .str "text"), ("text", .str text)]])]

/-- `session_add_user`. -/
def sessionAddUser (s : Session) (text : String) : Session :=
  ⟨s.messages ++ [userMsgJson text]⟩

/-- `session_add_assistant`. -/
def sessionAddAssistant (s : Session) (text : String) : Session :=
  ⟨s.messages ++ [assistantTextMsg text]⟩

/-- The `tool_use` block built by `session_add_tool_use`: the input string is
parsed, an empty object standing in when it does not parse. -/
def toolUseBlock (toolId name inputJson : String) : Json :=
  .obj [("type", .str "tool_use"), ("id", .str toolId), ("name", .str name),
    ("input", (parseJson inputJson).getD (.obj []))]

/-- Whether a message's `role` member holds the string `"assistant"`. -/
def roleIsAssistant (m : Json) : Bool :=
  match jsonGet m "role" with
  | some (.str r) => r = "assistant"
  | _ => false

/-- Replace the value under the first case-insensitively matching key. -/
def objSetList : List (String × Json) → String → Json → List (String × Json)
  | [], _, _ => []
  | (k, v0) :: kvs, key, v =>
    if ciEq k key then (k, v) :: kvs else (k, v0) :: objSetList kvs key v

/-- In-place member update, as mutating the item found by
`cJSON_GetObjectItem`. -/
def objSet : Json → String → Json → Json
  | .obj kvs, key, v => .obj (objSetList kvs key v)
  | j, _, _ => j

/-- A fresh assistant message holding one `tool_use` block. -/
def assistantToolUseMsg (toolId name inputJson : String) : Json :=
  .obj [("role", .str "assistant"), ("content", .arr [toolUseBlock toolId name inputJson])]

/-- `session_add_tool_use`: coalesce the block onto a trailing assistant
message whose content is an array, else append a fresh assistant message. -/
def sessionAddToolUse (s : Session) (toolId name inputJson : String) : Session :=
  let block := toolUseBlock toolId name inputJson
  match s.messages.getLast? with
  | some last =>
    if roleIsAssistant last then
      match jsonGet last "content" with
      | some (.arr items) =>
        ⟨s.messages.dropLast ++ [objSet last "content" (.arr (items ++ [block]))]⟩
      | _ => ⟨s.messages ++ [assistantToolUseMsg toolId name inputJson]⟩
    else ⟨s.messages ++ [assistantToolUseMsg toolId name inputJson]⟩
  | none => ⟨s.messages ++ [assistantToolUseMsg toolId name inputJson]⟩

/-- The message built by `session_add_tool_result`. -/
def toolResultMsg (toolId output : String) : Json :=
  .obj [("role", .str "user"), ("content", .arr [.obj [("type", .str "tool_result"),
    ("tool_use_id", .str toolId), ("content", .str output)]])]

/-- `session_add_tool_result`. -/
def sessionAddToolResult (s : Session) (toolId output : String) : Session :=
  ⟨s.messages ++ [toolResultMsg toolId output]⟩

/-- Whether the session's trailing message (if any) is not an assistant
message: the condition under which `session_add_tool_use` appends a fresh
message instead of coalescing. -/
def lastNotAssistant (s : Session) : Bool :=
  match s.messages.getLast? with
  | some m => !(roleIsAssistant m)
  | none => true

/-- One mutation of the session store, for stating round-trip over arbitrary
operation sequences. -/
inductive SessionOp where
  | user (text : String)
  | assistant (text : String)
  | toolUse (toolId name inputJson : String)
  | toolResult (toolId output : String)

/-- Apply one session operation. -/
def applyOp (s : Session) : SessionOp → Session
  | .user t => sessionAddUser s t
  | .assistant t => sessionAddAssistant s t
  | .toolUse i n j => sessionAddToolUse s i n j
  | .toolResult i o => sessionAddToolResult s i o

/-- Apply a sequence of session operations. -/
def applyOps (s : Session) (ops : List SessionOp) : Session :=
  ops.foldl applyOp s

/-! ### The agent turn loop (`src/main.c`) -/

/-- One provider tool call as consumed by `agent_turn` (`ToolCall` in
`provider.h`, all fields present). -/
structure ToolCall where
  id : String
  name : String
  inputJson : String

/-- The provider response fields that `agent_turn` inspects. -/
structure ChatResponse where
  text : Option String
  toolCalls : List ToolCall

/-- The inner loop of `agent_turn` over one response's tool calls: append the
`tool_use` block, execute the tool, append the `tool_result` message. -/
def runTools (exec : String → String → String) (s : Session) (tcs : List ToolCall) : Session :=
  tcs.foldl (fun acc tc =>
    sessionAddToolResult (sessionAddToolUse acc tc.id tc.name tc.inputJson)
      tc.id (exec tc.name tc.inputJson)) s

/-- The turn loop of `agent_turn`: `provider t` is the response of the
provider call at iteration `t`; the result carries the final session, the
returned text, and the number of provider calls made. -/
def agentLoop (provider : Nat → ChatResponse) (exec : String → String → String) :
    Nat → Nat → Session → Option String → Session × Option String × Nat
  | _, 0, s, fin => (s, fin, 0)
  | t, fuel + 1, s, fin =>
    let resp := provider t
    if resp.toolCalls.isEmpty then
      match resp.text with
      | some tx => (sessionAddAssistant s tx, some tx, 1)
      | none => (s, fin, 1)
    else
      let s2 := runTools exec s resp.toolCalls
      let fin2 := match resp.text with
        | some tx => some tx
        | none => fin
      let r := agentLoop provider exec (t + 1) fuel s2 fin2
      (r.1, r.2.1, r.2.2 + 1)

/-- `agent_turn`: append the user message, then run at most
`max_turns = 10` provider calls. -/
def agentTurn (provider : Nat → ChatResponse) (exec : String → String → String)
    (s : Session) (userMsg : String) : Session × Option String × Nat :=
  agentLoop provider exec 0 10 (sessionAddUser s userMsg) none

/-- The two messages one tool call contributes to the session. -/
def toolPairMsgs (exec : String → String → String) (tc : ToolCall) : List Json :=
  [assistantToolUseMsg tc.id tc.name tc.inputJson,
    toolResultMsg tc.id (exec tc.name tc.inputJson)]

/-- The messages the turn loop appends from iteration `t` on, with `fuel`
iterations left. -/
def loopMsgs (provider : Nat → ChatResponse) (exec : String → String → String) :
    Nat → Nat → List Json
  | _, 0 => []
  | t, fuel + 1 =>
    let resp := provider t
    if resp.toolCalls.isEmpty then
      match resp.text with
      | some tx => [assistantTextMsg tx]
      | none => []
    else resp.toolCalls.flatMap (toolPairMsgs exec) ++ loopMsgs provider exec (t + 1) fuel

/-- The final text the turn loop returns from iteration `t` on. -/
def loopFinal (provider : Nat → ChatResponse) : Nat → Nat → Option String → Option String
  | _, 0, fin => fin
  | t, fuel + 1, fin =>
    let resp := provider t
    let fin2 := match resp.text with
      | some tx => some tx
      | none => fin
    if resp.toolCalls.isEmpty then fin2
    else loopFinal provider (t + 1) fuel fin2

/-- The number of provider calls the turn loop makes from iteration `t` on. -/
def loopCalls (provider : Nat → ChatResponse) : Nat → Nat → Nat
  | _, 0 => 0
  | t, fuel + 1 =>
    if (provider t).toolCalls.isEmpty then 1
    else loopCalls provider (t + 1) fuel + 1

/-- The last `text` the provider emitted among calls `0..n-1`, if any. -/
def lastTextUpTo (provider : Nat → ChatResponse) : Nat → Option String
  | 0 => none
  | n + 1 =>
    match (provider n).text with
    | some t => some t
    | none => lastTextUpTo provider n

/-- The blocks of a message's `content` array. -/
def msgBlocks (m : Json) : List Json :=
  match jsonGet m "content" with
  | some (.arr bs) => bs
  | _ => []

/-- The `type` member of a block, when it is a string. -/
def blockType (b : Json) : Option String :=
  match jsonGet b "type" with
  | some (.str t) => some t
  | _ => none

/-- A string-valued member of a block. -/
def strField (b : Json) (k : String) : Option String :=
  match jsonGet b k with
  | some (.str s) => some s
  | _ => none

/-- The ids of the `tool_use` blocks of one message, in order. -/
def toolUseIdsOf (m : Json) : List String :=
  (msgBlocks m).filterMap (fun b =>
    if blockType b = some "tool_use" then strField b "id" else none)

/-- The `tool_use_id`s of the `tool_result` blocks of one message, in order. -/
def toolResultIdsOf (m : Json) : List String :=
  (msgBlocks m).filterMap (fun b =>
    if blockType b = some "tool_result" then strField b "tool_use_id" else none)

/-! ### Dialect-A streaming (`src/provider.c`) -/

/-- A tool call assembled by the dialect-A stream handler: `id` was present at
`content_block_start`, `name` may have been absent, the input is the
concatenation of the `input_json_delta` fragments. -/
structure ToolCallA where
  id : String
  name : Option String
  inputJson : String

/-- The `ChatResponse` fields the dialect-A stream handler fills in. -/
structure ARespFields where
  text : Option String
  toolCalls : List ToolCallA
  stopReason : Option String
  inputTokens : Int
  outputTokens : Int

/-- The zero-initialised response. -/
def aRespZero : ARespFields := ⟨none, [], none, 0, 0⟩

/-- The `StreamState` of `provider.c`: callback state, accumulated response,
and the pending tool call. -/
structure AState (σ : Type) where
  cbState : σ
  resp : ARespFields
  currentToolId : Option String
  currentToolName : Option String
  currentToolInput : String

/-- Append a fragment to the accumulated text (`strdup`/`realloc` growth). -/
def appendText (t : Option String) (frag : String) : Option String :=
  match t with
  | none => some frag
  | some old => some (old ++ frag)

/-- One `stream_cb` invocation on one `data:` payload. Returns the new state,
whether the HTTP layer should keep reading, and the fragments delivered to
the user callback during this step (an observability annotation of the
`st->user_cb(...)` call site). -/
def streamStepA {σ : Type} (cb : Option (σ → String → σ × Bool)) (st : AState σ)
    (data : String) : AState σ × Bool × List String :=
  if data = "[DONE]" then (st, false, [])
  else match parseJson data with
  | none => (st, true, [])
  | some ev =>
    match jsonGet ev "type" with
    | some (.str ty) =>
      if ty = "content_block_delta" then
        match jsonGet ev "delta" with
        | some delta =>
          match jsonGet delta "type" with
          | some (.str dt) =>
            if dt = "text_delta" then
              match jsonGet delta "text" with
              | some (.str txt) =>
                match cb with
                | some f =>
                  match f st.cbState txt with
                  | (cbs, true) =>
                    let st1 := { st with cbState := cbs }
                    let st2 := { st1 with resp := { st1.resp with text := appendText st1.resp.text txt } }
                    (st2, true, [txt])
                  | (cbs, false) => ({ st with cbState := cbs }, false, [txt])
                | none =>
                  ({ st with resp := { st.resp with text := appendText st.resp.text txt } },
                    true, [])
              | _ => (st, true, [])
            else if dt = "input_json_delta" then
              match jsonGet delta "partial_json" with
              | some (.str p) =>
                ({ st with currentToolInput := st.currentToolInput ++ p }, true, [])
              | _ => (st, true, [])
            else (st, true, [])
          | _ => (st, true, [])
        | none => (st, true, [])
      else if ty = "content_block_start" then
        match jsonGet ev "content_block" with
        | some cbj =>
          match jsonGet cbj "type" with
          | some (.str cbt) =>
            if cbt = "tool_use" then
              ({ st with
                  currentToolId := match jsonGet cbj "id" with
                    | some (.str i) => some i
                    | _ => none,
                  currentToolName := match jsonGet cbj "name" with
                    | some (.str n) => some n
                    | _ => none,
                  currentToolInput := "" }, true, [])
            else (st, true, [])
          | _ => (st, true, [])
        | none => (st, true, [])
      else if ty = "content_block_stop" then
        match st.currentToolId with
        | some i =>
          ({ st with
              resp := { st.resp with toolCalls := st.resp.toolCalls
                ++ [⟨i, st.currentToolName, st.currentToolInput⟩] },
              currentToolId := none, currentToolName := none,
              currentToolInput := "" }, true, [])
        | none => (st, true, [])
      else if ty = "message_delta" then
        let st1 := match jsonGet ev "delta" with
          | some delta =>
            match jsonGet delta "stop_reason" with
            | some (.str sr) => { st with resp := { st.resp with stopReason := some sr } }
            | _ => st
          | none => st
        let st2 := match jsonGet ev "usage" with
          | some usage =>
            match jsonGet usage "output_tokens" with
            | some ot => { st1 with resp := { st1.resp with outputTokens := jsonInt ot } }
            | none => st1
          | none => st1
        (st2, true, [])
      else if ty = "message_start" then
        let st1 := match jsonGet ev "message" with
          | some msg =>
            match jsonGet msg "usage" with
            | some usage =>
              match jsonGet usage "input_tokens" with
              | some it => { st with resp := { st.resp with inputTokens := jsonInt it } }
              | none => st
            | none => st
          | none => st
        (st1, true, [])
      else (st, true, [])
    | _ => (st, true, [])

/-- `http_post_stream` driving `stream_cb` over the event payloads: stop at
the first `false` return. Also returns the delivered fragments, each paired
with the value the callback returned for it. -/
def runStreamA {σ : Type} (cb : Option (σ → String → σ × Bool)) :
    AState σ → List String → AState σ × List (String × Bool)
  | st, [] => (st, [])
  | st, d :: ds =>
    let r := streamStepA cb st d
    if r.2.1 then
      let next := runStreamA cb r.1 ds
      (next.1, r.2.2.map (fun f => (f, true)) ++ next.2)
    else (r.1, r.2.2.map (fun f => (f, false)))

/-- `provider_chat_stream`: zero state, run the stream, return the
accumulated response (plus the delivered-fragment trace). -/
def providerChatStream {σ : Type} (cb : Option (σ → String → σ × Bool)) (s0 : σ)
    (events : List String) : ARespFields × List (String × Bool) :=
  let r := runStreamA cb ⟨s0, aRespZero, none, none, ""⟩ events
  (r.1.resp, r.2)

/-! ### Dialect-B streaming (`src/provider_openai.c`) -/

/-- One finalized dialect-B tool-call slot: any field the server never sent
stays `none` (a NULL pointer from the zero-initialised slot tables). -/
structure ToolCallB where
  id : Option String
  name : Option String
  args : Option String
deriving DecidableEq, Repr

/-- The `OaiStreamState`: callback state, accumulated response fields, the
three 32-entry slot tables, and the slot count. `touched` is an
observability annotation recording which indices ever appeared. -/
structure BState (σ : Type) where
  cbState : σ
  text : Option String
  stopReason : Option String
  inputTokens : Int
  outputTokens : Int
  toolIds : Int → Option String
  toolNames : Int → Option String
  toolArgs : Int → Option String
  touched : Int → Bool
  numTools : Int

/-- The zero-initialised stream state. -/
def bStateZero {σ : Type} (s0 : σ) : BState σ :=
  ⟨s0, none, none, 0, 0, fun _ => none, fun _ => none, fun _ => none, fun _ => false, 0⟩

/-- Point update of a slot table. -/
def updSlot (f : Int → Option String) (i : Int) (v : Option String) : Int → Option String :=
  fun j => if j = i then v else f j

/-- Processing of one element of a `delta.tool_calls` array at a given slot
index (`oai_stream_cb` lines 280-312). -/
def oaiToolDeltaAt {σ : Type} (st : BState σ) (idx : Int) (tc : Json) : BState σ :=
  if 32 ≤ idx then st
  else
    let st1 := { st with
      numTools := if st.numTools ≤ idx then idx + 1 else st.numTools,
      touched := fun j => if j = idx then true else st.touched j }
    let st2 := match jsonGet tc "id" with
      | some (.str i) => { st1 with toolIds := updSlot st1.toolIds idx (some i) }
      | _ => st1
    match jsonGet tc "function" with
    | some fn =>
      let st3 := match jsonGet fn "name" with
        | some (.str n) => { st2 with toolNames := updSlot st2.toolNames idx (some n) }
        | _ => st2
      match jsonGet fn "arguments" with
      | some (.str a) =>
        let newArgs := some ((st3.toolArgs idx).getD "" ++ a)
        { st3 with toolArgs := updSlot st3.toolArgs idx newArgs }
      | _ => st3
    | none => st2

/-- Processing of one element of a `delta.tool_calls` array: the `index`
member (its `valueint`, 0 when absent) selects the slot. -/
def oaiToolDelta {σ : Type} (st : BState σ) (tc : Json) : BState σ :=
  oaiToolDeltaAt st
    (match jsonGet tc "index" with
      | some j => jsonInt j
      | none => 0) tc

/-- Mapping of OpenAI finish reasons (`oai_stream_cb` lines 247-254). -/
def mapFinish (fr : String) : String :=
  if fr = "stop" then "end_turn"
  else if fr = "tool_calls" then "tool_use"
  else fr

/-- Store a mapped finish reason when the chunk carries one. -/
def bSetFinish {σ : Type} (st : BState σ) (choice : Json) : BState σ :=
  match jsonGet choice "finish_reason" with
  | some (.str fr) => { st with stopReason := some (mapFinish fr) }
  | _ => st

/-- Handle a `delta.content` text fragment: deliver to the callback first;
abort without accumulating when it returns false. -/
def bContentDelta {σ : Type} (cb : Option (σ → String → σ × Bool)) (st : BState σ)
    (delta : Json) : BState σ × Bool :=
  match jsonGet delta "content" with
  | some (.str txt) =>
    match cb with
    | some f =>
      match f st.cbState txt with
      | (cbs, true) => ({ st with cbState := cbs, text := appendText st.text txt }, true)
      | (cbs, false) => ({ st with cbState := cbs }, false)
    | none => ({ st with text := appendText st.text txt }, true)
  | _ => (st, true)

/-- Handle the `delta.tool_calls` array, one slot delta at a time. -/
def bToolDeltas {σ : Type} (st : BState σ) (delta : Json) : BState σ :=
  match jsonGet delta "tool_calls" with
  | some (.arr tcs) => tcs.foldl oaiToolDelta st
  | _ => st

/-- Copy usage counters when the chunk carries them. -/
def bSetUsage {σ : Type} (st : BState σ) (ev : Json) : BState σ :=
  match jsonGet ev "usage" with
  | some usage =>
    { st with
      inputTokens := match jsonGet usage "prompt_tokens" with
        | some pt => jsonInt pt
        | none => st.inputTokens,
      outputTokens := match jsonGet usage "completion_tokens" with
        | some ct => jsonInt ct
        | none => st.outputTokens }
  | none => st

/-- One `oai_stream_cb` invocation on one `data:` payload: finish reason,
then the delta (text content may abort before tool calls are handled),
then usage. -/
def oaiStep {σ : Type} (cb : Option (σ → String → σ × Bool)) (st : BState σ)
    (data : String) : BState σ × Bool :=
  if data = "[DONE]" then (st, false)
  else match parseJson data with
  | none => (st, true)
  | some ev =>
    match jsonGet ev "choices" with
    | some (.arr (choice :: _)) =>
      match jsonGet choice "delta" with
      | some delta =>
        match bContentDelta cb (bSetFinish st choice) delta with
        | (st2, true) => (bSetUsage (bToolDeltas st2 delta) ev, true)
        | (st2, false) => (st2, false)
      | none => (bSetUsage (bSetFinish st choice) ev, true)
    | _ => (st, true)

/-- The slot tables, slot count and touch trace of a dialect-B state. -/
def bTables {σ : Type} (st : BState σ) :
    (Int → Option String) × (Int → Option String) × (Int → Option String)
      × (Int → Bool) × Int :=
  (st.toolIds, st.toolNames, st.toolArgs, st.touched, st.numTools)

/-- The slot-table invariant of the dialect-B stream state: every touched
non-negative index lies below `numTools`, untouched slots are all-none, and
the slot count is non-negative. -/
def bInv {σ : Type} (st : BState σ) : Prop :=
  (∀ i : Int, 0 ≤ i → st.touched i = true → i < st.numTools) ∧
    (∀ i : Int, st.touched i = false →
      st.toolIds i = none ∧ st.toolNames i = none ∧ st.toolArgs i = none) ∧
    0 ≤ st.numTools

/-- `http_post_stream` driving `oai_stream_cb`. -/
def runStreamB {σ : Type} (cb : Option (σ → String → σ × Bool)) :
    BState σ → List String → BState σ
  | st, [] => st
  | st, d :: ds =>
    match oaiStep cb st d with
    | (st1, true) => runStreamB cb st1 ds
    | (st1, false) => st1

/-- The finalize loop of `openai_chat_stream` (lines 351-360): copy slots
`0 .. num_tools-1` into the tool-call list, in index order, with no check
that a slot was ever filled. -/
def oaiFinalize {σ : Type} (st : BState σ) : List ToolCallB :=
  if 0 < st.numTools then
    (List.range st.numTools.toNat).map
      (fun i : Nat => ⟨st.toolIds (i : Int), st.toolNames (i : Int), st.toolArgs (i : Int)⟩)
  else []

/-- The result of `openai_chat_stream`: finalized tool calls plus the
response fields, with the final state retained for stating slot properties. -/
def openaiChatStream {σ : Type} (cb : Option (σ → String → σ × Bool)) (s0 : σ)
    (events : List String) : List ToolCallB × BState σ :=
  (oaiFinalize (runStreamB cb (bStateZero s0) events),
    runStreamB cb (bStateZero s0) events)

/-! ### The cron scheduler (`src/cron.c`) -/

/-- A parsed cron expression: each field is `-1` for a wildcard, `-(100+N)`
for a step `*/N`, or the exact value. -/
structure CronExpr where
  minute : Int
  hour : Int
  mday : Int
  month : Int
  wday : Int
deriving DecidableEq, Repr

/-- The local-time fields `cron_matches` reads from `struct tm`. -/
structure Tm where
  tm_min : Int
  tm_hour : Int
  tm_mday : Int
  tm_mon : Int
  tm_wday : Int

/-- C `atoi`: skip whitespace, optional sign, leading digits (0 if none). -/
def atoiC (cs : List Char) : Int :=
  let cs2 := cs.dropWhile (fun c => c.toNat == 32 || (9 ≤ c.toNat && c.toNat ≤ 13))
  match cs2 with
  | '-' :: rest => -(((parseDigits rest 0).1 : Int))
  | '+' :: rest => ((parseDigits rest 0).1 : Int)
  | _ => ((parseDigits cs2 0).1 : Int)

/-- `parse_field`: `*` and malformed steps encode as `-1` (wildcard), `*/N`
as `-(100+N)`, anything else through `atoi`. -/
def parse_field (f : List Char) : Int :=
  match f with
  | '*' :: rest =>
    match rest with
    | '/' :: rest2 =>
      let step := atoiC rest2
      if step ≤ 0 then -1 else -(100 + step)
    | _ => -1
  | _ => atoiC f

/-- A `strtok` separator for cron expressions: space or tab. -/
def isSepCh (c : Char) : Bool := c = ' ' || c = '\t'

/-- `strtok`-style field splitting: empty tokens are dropped. -/
def fieldsAux : List Char → List Char → List (List Char)
  | [], cur => if cur.isEmpty then [] else [cur.reverse]
  | c :: cs, cur =>
    if isSepCh c then
      if cur.isEmpty then fieldsAux cs [] else cur.reverse :: fieldsAux cs []
    else fieldsAux cs (c :: cur)

/-- The whitespace-separated fields of a cron expression. -/
def fieldsOf (cs : List Char) : List (List Char) := fieldsAux cs []

/-- `cron_parse`: copy at most 127 bytes, take the first five fields, fail
only when fewer than five fields are present. -/
def cron_parse (expr : String) : Option CronExpr :=
  match fieldsOf (expr.toList.take 127) with
  | f1 :: f2 :: f3 :: f4 :: f5 :: _ =>
    some ⟨parse_field f1, parse_field f2, parse_field f3, parse_field f4, parse_field f5⟩
  | _ => none

/-- `field_matches`: wildcard, step (C `%`, truncated), or exact. -/
def field_matches (fieldVal timeVal : Int) : Bool :=
  if fieldVal = -1 then true
  else if fieldVal < -100 then
    let step := -(fieldVal + 100)
    Int.tmod timeVal step == 0
  else fieldVal == timeVal

/-- `cron_matches`. -/
def cron_matches (e : CronExpr) (tm : Tm) : Bool :=
  field_matches e.minute tm.tm_min
    && field_matches e.hour tm.tm_hour
    && field_matches e.mday tm.tm_mday
    && field_matches e.month (tm.tm_mon + 1)
    && field_matches e.wday tm.tm_wday

/-- The minute-aligned start of the minute containing `now`
(`now - now % 60`; `time_t` values are non-negative). -/
def minuteStart (now : Nat) : Nat := now - now % 60

/-- One visit of the `cron_run` loop to one job: skip when the job already
ran at or после the minute start, else fire when the expression matches. -/
def cronTick (e : CronExpr) (lastRun now : Nat) (tm : Tm) : Nat × Bool :=
  if minuteStart now ≤ lastRun then (lastRun, false)
  else if cron_matches e tm then (now, true) else (lastRun, false)

/-- The firing times of one job over a sequence of loop visits, threading
`last_run` (initially 0 from `cron_add`). -/
def cronFires (e : CronExpr) : Nat → List (Nat × Tm) → List Nat
  | _, [] => []
  | lr, (now, tm) :: ts =>
    let r := cronTick e lr now tm
    (if r.2 then [now] else []) ++ cronFires e r.1 ts

/-! ### WebSocket handshake accept key (`src/ws.c`) -/

/-- 32-bit left rotation on `Nat` (values kept below `2 ^ 32`). -/
def rotl32 (n x : Nat) : Nat :=
  ((x <<< n) % 4294967296) ||| (x >>> (32 - n))

/-- Big-endian 8-byte encoding. -/
def be8 (n : Nat) : List Nat :=
  (List.range 8).map (fun i => (n >>> (56 - 8 * i)) % 256)

/-- Big-endian 4-byte encoding. -/
def be4 (n : Nat) : List Nat :=
  (List.range 4).map (fun i => (n >>> (24 - 8 * i)) % 256)

/-- SHA-1 message padding: `0x80`, zeros to 56 mod 64, 8-byte bit length. -/
def sha1Pad (m : List Nat) : List Nat :=
  m ++ 128 :: List.replicate ((119 - m.length % 64) % 64) 0 ++ be8 (8 * m.length)

/-- Split into 64-byte blocks (fuelled by the list length so that the
recursion is structural and kernel-reducible). -/
def chunksOf64Aux : Nat → List Nat → List (List Nat)
  | 0, _ => []
  | _ + 1, [] => []
  | fuel + 1, b :: bs => ((b :: bs).take 64) :: chunksOf64Aux fuel ((b :: bs).drop 64)

/-- Split into 64-byte blocks. -/
def chunksOf64 (l : List Nat) : List (List Nat) := chunksOf64Aux l.length l

/-- The 16 big-endian 32-bit words of one block. -/
def wordsOf (block : List Nat) : List Nat :=
  (List.range 16).map (fun i =>
    (block.getD (4 * i) 0) <<< 24 + (block.getD (4 * i + 1) 0) <<< 16
      + (block.getD (4 * i + 2) 0) <<< 8 + block.getD (4 * i + 3) 0)

/-- Message-schedule extension to 80 words (kept in reverse order while
building). -/
def extendW (ws : List Nat) : List Nat :=
  ((List.range 64).foldl (fun acc _ =>
    rotl32 1 ((acc.getD 2 0) ^^^ (acc.getD 7 0) ^^^ (acc.getD 13 0) ^^^ (acc.getD 15 0)) :: acc)
    ws.reverse).reverse

/-- The SHA-1 round function. -/
def sha1F (t b c d : Nat) : Nat :=
  if t < 20 then (b &&& c) ||| ((b ^^^ 4294967295) &&& d)
  else if t < 40 then b ^^^ c ^^^ d
  else if t < 60 then (b &&& c) ||| (b &&& d) ||| (c &&& d)
  else b ^^^ c ^^^ d

/-- The SHA-1 round constants. -/
def sha1K (t : Nat) : Nat :=
  if t < 20 then 1518500249
  else if t < 40 then 1859775393
  else if t < 60 then 2400959708
  else 3395469782

/-- One SHA-1 block compression. -/
def sha1Compress (h : Nat × Nat × Nat × Nat × Nat) (block : List Nat) :
    Nat × Nat × Nat × Nat × Nat :=
  let w := extendW (wordsOf block)
  let r := (List.range 80).foldl (fun st t =>
    let temp := (rotl32 5 st.1 + sha1F t st.2.1 st.2.2.1 st.2.2.2.1 + st.2.2.2.2
      + sha1K t + w.getD t 0) % 4294967296
    (temp, st.1, rotl32 30 st.2.1, st.2.2.1, st.2.2.2.1)) h
  ((h.1 + r.1) % 4294967296, (h.2.1 + r.2.1) % 4294967296,
    (h.2.2.1 + r.2.2.1) % 4294967296, (h.2.2.2.1 + r.2.2.2.1) % 4294967296,
    (h.2.2.2.2 + r.2.2.2.2) % 4294967296)

/-- SHA-1 of a byte sequence (`mbedtls_sha1`). -/
def sha1 (msg : List Nat) : List Nat :=
  let f := (chunksOf64 (sha1Pad msg)).foldl sha1Compress
    (1732584193, 4023233417, 2562383102, 271733878, 3285377520)
  be4 f.1 ++ be4 f.2.1 ++ be4 f.2.2.1 ++ be4 f.2.2.2.1 ++ be4 f.2.2.2.2

/-- The base64 alphabet of `ws.c`. -/
def b64Ch (n : Nat) : Char :=
  "ABCDEFGHIJKLMNOPQRSTUVWXYZabcdefghijklmnopqrstuvwxyz0123456789+/".toList.getD n 'A'

/-- `base64_encode` of `ws.c`: 3-byte groups, `=` padding. -/
def base64Encode : List Nat → List Char
  | b1 :: b2 :: b3 :: rest =>
    b64Ch ((b1 >>> 2) &&& 63) :: b64Ch (((b1 &&& 3) <<< 4) ||| (b2 >>> 4))
      :: b64Ch (((b2 &&& 15) <<< 2) ||| (b3 >>> 6)) :: b64Ch (b3 &&& 63)
      :: base64Encode rest
  | [b1, b2] =>
    [b64Ch ((b1 >>> 2) &&& 63), b64Ch (((b1 &&& 3) <<< 4) ||| (b2 >>> 4)),
      b64Ch ((b2 &&& 15) <<< 2), '=']
  | [b1] =>
    [b64Ch ((b1 >>> 2) &&& 63), b64Ch ((b1 &&& 3) <<< 4), '=', '=']
  | [] => []

/-- The magic GUID as written in `ws.c` line 23. -/
def WS_MAGIC : String := "258EAFA5-E914-47DA-95CA-5AB9DC085B7"

/-- The magic GUID required by RFC 6455 section 1.3. -/
def rfc6455Magic : String := "258EAFA5-E914-47DA-95CA-C5AB0DC85B11"

/-- The accept-key computation of `ws_handshake` (lines 126-133),
parameterised by the magic string it concatenates. -/
def wsAcceptWith (magic key : String) : String :=
  String.mk (base64Encode (sha1 ((key ++ magic).toList.map Char.toNat)))

/-- `ws_handshake`'s accept value for a client key. -/
def wsAccept (key : String) : String := wsAcceptWith WS_MAGIC key

/-! ### Derived observables used in theorem statements -/

/-- The tool-call ids the provider emits during calls `t .. t+fuel-1`. -/
def toolIdsFrom (provider : Nat → ChatResponse) : Nat → Nat → List String
  | _, 0 => []
  | t, fuel + 1 => (provider t).toolCalls.map (·.id) ++ toolIdsFrom provider (t + 1) fuel

/-- All tool-call ids the provider can emit during one turn (ten calls). -/
def allToolIds (provider : Nat → ChatResponse) : List String :=
  toolIdsFrom provider 0 10

/-- The tool calls the turn loop executes from iteration `t` on. -/
def turnToolCalls (provider : Nat → ChatResponse) : Nat → Nat → List ToolCall
  | _, 0 => []
  | t, fuel + 1 =>
    if (provider t).toolCalls.isEmpty then []
    else (provider t).toolCalls ++ turnToolCalls provider (t + 1) fuel

/-- The last `text` the provider emits among calls `t .. t+fuel-1`, if any. -/
def lastTextIn (provider : Nat → ChatResponse) : Nat → Nat → Option String
  | _, 0 => none
  | t, fuel + 1 =>
    match lastTextIn provider (t + 1) fuel with
    | some x => some x
    | none => (provider t).text

/-- A dialect-A `text_delta` event payload carrying the fragment `he`. -/
def aTextDeltaHe : String :=
  "\x7b\"type\":\"content_block_delta\",\"delta\":\x7b\"type\":\"text_delta\",\"text\":\"he\"\x7d\x7d"

/-- A dialect-B stream chunk whose tool-call delta touches slot 0 with
id `a`. -/
def bSlot0Event : String :=
  "\x7b\"choices\":[\x7b\"delta\":\x7b\"tool_calls\":[\x7b\"index\":0,\"id\":\"a\"\x7d]\x7d\x7d]\x7d"

/-- A dialect-B stream chunk whose tool-call delta touches slot 2 with
id `b`. -/
def bSlot2Event : String :=
  "\x7b\"choices\":[\x7b\"delta\":\x7b\"tool_calls\":[\x7b\"index\":2,\"id\":\"b\"\x7d]\x7d\x7d]\x7d"

/-- A concrete provider for witness inputs: one tool call on the first
iteration, then a plain text answer. -/
def demoProvider : Nat → ChatResponse :=
  fun t => if t = 0 then ⟨some "working", [⟨"call-1", "echo", "\x7b\x7d"⟩]⟩
    else ⟨some "done", []⟩

/-- A concrete provider for witness inputs: a tool call on every iteration,
with text on the first only. -/
def busyProvider : Nat → ChatResponse :=
  fun t => ⟨if t = 0 then some "still going" else none, [⟨"c", "echo", "\x7b\x7d"⟩]⟩

/-- A concrete tool executor for witness inputs. -/
def demoExec : String → String → String := fun _ _ => "ok"

/-! ### Whitespace and digit lemmas -/

theorem skipWs_cons_ws {c : Char} (h : c.toNat ≤ 32) (s : List Char) :
    skipWs (c :: s) = skipWs s := by
  simp [skipWs, h]

theorem skipWs_cons_not {c : Char} (h : ¬ c.toNat ≤ 32) (s : List Char) :
    skipWs (c :: s) = c :: s := by
  simp [skipWs, h]

theorem skipWs_append {w : List Char} (h : allWs w) (s : List Char) :
    skipWs (w ++ s) = skipWs s := by
  induction w with
  | nil => rfl
  | cons c cs ih =>
    rw [List.cons_append, skipWs_cons_ws (h c (by simp)), ih]
    intro x hx
    exact h x (by simp [hx])

theorem allWs_tabs (d : Nat) : allWs (tabs d) := by
  intro c hc
  rw [tabs, List.mem_replicate] at hc
  rw [hc.2]
  decide

theorem isDigitCh_iff {c : Char} : isDigitCh c = true ↔ 48 ≤ c.toNat ∧ c.toNat ≤ 57 := by
  simp [isDigitCh]

theorem natCharsAux_acc (n : Nat) : ∀ acc, natCharsAux n acc = natCharsAux n [] ++ acc := by
  induction n using Nat.strong_induction_on with
  | _ n ih =>
    intro acc
    match n with
    | 0 => simp [natCharsAux]
    | m + 1 =>
      rw [natCharsAux, natCharsAux,
        ih ((m + 1) / 10) (Nat.div_lt_self (Nat.succ_pos m) (by omega)),
        ih ((m + 1) / 10) (Nat.div_lt_self (Nat.succ_pos m) (by omega))
          [Char.ofNat (48 + (m + 1) % 10)]]
      simp

theorem toNat_digit_char (m : Nat) (h : m < 10) : (Char.ofNat (48 + m)).toNat = 48 + m := by
  interval_cases m <;> decide

theorem natCharsAux_digits (n : Nat) : ∀ c ∈ natCharsAux n [], isDigitCh c = true := by
  induction n using Nat.strong_induction_on with
  | _ n ih =>
    intro c hc
    match n with
    | 0 => simp [natCharsAux] at hc
    | m + 1 =>
      rw [natCharsAux, natCharsAux_acc] at hc
      rcases List.mem_append.1 hc with h1 | h1
      · exact ih ((m + 1) / 10) (Nat.div_lt_self (Nat.succ_pos m) (by omega)) c h1
      · have : c = Char.ofNat (48 + (m + 1) % 10) := by simpa using h1
        rw [this, isDigitCh_iff, toNat_digit_char _ (Nat.mod_lt _ (by omega))]
        omega

theorem valDigits_append (xs ys : List Char) (acc : Nat) :
    valDigits (xs ++ ys) acc = valDigits ys (valDigits xs acc) := by
  simp [valDigits, List.foldl_append]

theorem valDigits_natCharsAux (n : Nat) :
    ∀ a, valDigits (natCharsAux n []) a = a * 10 ^ (natCharsAux n []).length + n := by
  induction n using Nat.strong_induction_on with
  | _ n ih =>
    intro a
    match n with
    | 0 => simp [natCharsAux, valDigits]
    | m + 1 =>
      have hlt : (m + 1) / 10 < m + 1 := Nat.div_lt_self (Nat.succ_pos m) (by omega)
      rw [natCharsAux, natCharsAux_acc, valDigits_append, ih _ hlt]
      have hch : (Char.ofNat (48 + (m + 1) % 10)).toNat = 48 + (m + 1) % 10 :=
        toNat_digit_char _ (Nat.mod_lt _ (by omega))
      simp only [valDigits, List.foldl_cons, List.foldl_nil, hch,
        List.length_append, List.length_cons, List.length_nil]
      rw [pow_succ]
      have := Nat.div_add_mod (m + 1) 10
      ring_nf
      omega

theorem natChars_digits (n : Nat) : ∀ c ∈ natChars n, isDigitCh c = true := by
  intro c hc
  rw [natChars] at hc
  by_cases h : n = 0
  · simp [h] at hc
    rw [hc]; decide
  · rw [if_neg h] at hc
    exact natCharsAux_digits n c hc

theorem valDigits_natChars (n : Nat) : valDigits (natChars n) 0 = n := by
  rw [natChars]
  by_cases h : n = 0
  · simp [h, valDigits]
  · rw [if_neg h, valDigits_natCharsAux]
    simp

theorem natChars_ne_nil (n : Nat) : natChars n ≠ [] := by
  rw [natChars]
  by_cases h : n = 0
  · simp [h]
  · rw [if_neg h]
    obtain ⟨k, rfl⟩ : ∃ k, n = k + 1 := ⟨n - 1, by omega⟩
    rw [natCharsAux, natCharsAux_acc]
    simp

theorem parseDigits_spec (cs : List Char) (rest : List Char) (acc : Nat)
    (hcs : ∀ c ∈ cs, isDigitCh c = true) (hrest : restSafe rest) :
    parseDigits (cs ++ rest) acc = (valDigits cs acc, rest) := by
  induction cs generalizing acc with
  | nil =>
    match rest with
    | [] => rfl
    | c :: rs =>
      have : isDigitCh c = false := hrest c rfl
      simp [parseDigits, this, valDigits]
  | cons c cs ih =>
    have hd : isDigitCh c = true := hcs c (by simp)
    rw [List.cons_append, parseDigits, if_pos hd,
      ih _ (fun x hx => hcs x (List.mem_cons_of_mem c hx))]
    simp [valDigits]

theorem parseDigits_natChars (n : Nat) (rest : List Char) (hrest : restSafe rest) :
    parseDigits (natChars n ++ rest) 0 = (n, rest) := by
  rw [parseDigits_spec _ _ _ (natChars_digits n) hrest, valDigits_natChars]

/-! ### String escape round-trip -/

theorem hexVal_hexDigitCh (n : Nat) (h : n < 16) : hexVal (hexDigitCh n) = some n := by
  interval_cases n <;> decide

theorem parseStrChars_esc (cs : List Char) (rest : List Char) :
    parseStrChars (escStr cs ++ '"' :: rest) = some (cs, rest) := by
  induction cs with
  | nil =>
    rw [show escStr [] = [] from rfl, List.nil_append, parseStrChars.eq_def]
    simp
  | cons c cs ih =>
    have hesc : escStr (c :: cs) = escChar c ++ escStr cs := by
      simp [escStr]
    rw [hesc, List.append_assoc]
    by_cases h1 : c = '"'
    · subst h1
      rw [show escChar '"' = ['\\', '"'] from rfl]
      rw [List.cons_append, List.cons_append, List.nil_append, parseStrChars.eq_def]
      simp +decide [unescChar, ih]
    by_cases h2 : c = '\\'
    · subst h2
      rw [show escChar '\\' = ['\\', '\\'] from rfl]
      rw [List.cons_append, List.cons_append, List.nil_append, parseStrChars.eq_def]
      simp +decide [unescChar, ih]
    by_cases h3 : c = Char.ofNat 8
    · subst h3
      rw [show escChar (Char.ofNat 8) = ['\\', 'b'] from rfl]
      rw [List.cons_append, List.cons_append, List.nil_append, parseStrChars.eq_def]
      simp +decide [unescChar, ih]
    by_cases h4 : c = Char.ofNat 12
    · subst h4
      rw [show escChar (Char.ofNat 12) = ['\\', 'f'] from rfl]
      rw [List.cons_append, List.cons_append, List.nil_append, parseStrChars.eq_def]
      simp +decide [unescChar, ih]
    by_cases h5 : c = '\n'
    · subst h5
      rw [show escChar '\n' = ['\\', 'n'] from rfl]
      rw [List.cons_append, List.cons_append, List.nil_append, parseStrChars.eq_def]
      simp +decide [unescChar, ih]
    by_cases h6 : c = Char.ofNat 13
    · subst h6
      rw [show escChar (Char.ofNat 13) = ['\\', 'r'] from rfl]
      rw [List.cons_append, List.cons_append, List.nil_append, parseStrChars.eq_def]
      simp +decide [unescChar, ih]
    by_cases h7 : c = '\t'
    · subst h7
      rw [show escChar '\t' = ['\\', 't'] from rfl]
      rw [List.cons_append, List.cons_append, List.nil_append, parseStrChars.eq_def]
      simp +decide [unescChar, ih]
    by_cases h8 : c.toNat < 32
    · rw [show escChar c = ['\\', 'u', '0', '0', hexDigitCh (c.toNat / 16),
          hexDigitCh (c.toNat % 16)] by
        simp [escChar, h1, h2, h3, h4, h5, h6, h7, h8]]
      have hdiv : hexVal (hexDigitCh (c.toNat / 16)) = some (c.toNat / 16) :=
        hexVal_hexDigitCh _ (by omega)
      have hmod : hexVal (hexDigitCh (c.toNat % 16)) = some (c.toNat % 16) :=
        hexVal_hexDigitCh _ (by omega)
      simp only [List.cons_append, List.nil_append]
      rw [parseStrChars.eq_def]
      simp only [reduceIte, reduceCtorEq, show hexVal '0' = some 0 from rfl, hdiv, hmod, ih]
      have hval : c.toNat / 16 * 16 + c.toNat % 16 = c.toNat := by
        omega
      simp +decide [hval, Char.ofNat_toNat]
    · rw [show escChar c = [c] by simp [escChar, h1, h2, h3, h4, h5, h6, h7, h8]]
      rw [List.cons_append, List.nil_append, parseStrChars.eq_def]
      simp [h1, h2, ih]

/-! ### Printed values: head characters and basic facts -/

theorem jsonFuel_pos (v : Json) : 1 ≤ jsonFuel v := by
  cases v <;> simp [jsonFuel]

theorem fuelItems_cons_pos (x : Json) (xs : List Json) : 1 ≤ fuelItems (x :: xs) := by
  simp [fuelItems]

theorem fuelMembers_cons_pos (k : String) (v : Json) (kvs : List (String × Json)) :
    1 ≤ fuelMembers ((k, v) :: kvs) := by
  simp [fuelMembers]

theorem natChars_head (n : Nat) :
    ∃ c cs, natChars n = c :: cs ∧ isDigitCh c = true := by
  cases h : natChars n with
  | nil => exact absurd h (natChars_ne_nil n)
  | cons c cs =>
    exact ⟨c, cs, rfl, natChars_digits n c (by rw [h]; simp)⟩

theorem intChars_shape (i : Int) :
    (i < 0 ∧ intChars i = '-' :: natChars i.natAbs) ∨
    (0 ≤ i ∧ intChars i = natChars i.natAbs) := by
  by_cases h : i < 0
  · exact Or.inl ⟨h, by simp [intChars, h]⟩
  · exact Or.inr ⟨by omega, by simp [intChars, h]⟩

theorem printAt_starts (d : Nat) (v : Json) :
    ∃ c cs, printAt d v = c :: cs ∧ starter c := by
  cases v with
  | null => exact ⟨'n', ['u', 'l', 'l'], by simp [printAt], Or.inl rfl⟩
  | bool b =>
    cases b
    · exact ⟨'f', ['a', 'l', 's', 'e'], by simp [printAt], by simp [starter]⟩
    · exact ⟨'t', ['r', 'u', 'e'], by simp [printAt], by simp [starter]⟩
  | num i =>
    rcases intChars_shape i with ⟨_, hi⟩ | ⟨_, hi⟩
    · exact ⟨'-', natChars i.natAbs, by simp [printAt, hi], by simp [starter]⟩
    · obtain ⟨c, cs, hc, hdig⟩ := natChars_head i.natAbs
      exact ⟨c, cs, by simp [printAt, hi, hc], by simp [starter, hdig]⟩
  | str s =>
    exact ⟨'"', escStr s.toList ++ ['"'], by simp [printAt, quoteStr], by simp [starter]⟩
  | arr xs =>
    exact ⟨'[', printElems d xs ++ [']'], by simp [printAt], by simp [starter]⟩
  | obj kvs =>
    exact ⟨'{', '\n' :: (printMembers (d + 1) kvs ++ tabs d ++ ['}']),
      by simp [printAt], by simp [starter]⟩

theorem starter_facts {c : Char} (h : starter c) :
    ¬ c.toNat ≤ 32 ∧ c ≠ ']' ∧ c ≠ '}' := by
  rcases h with rfl | rfl | rfl | rfl | rfl | hd | rfl | rfl
  · exact ⟨by decide, by decide, by decide⟩
  · exact ⟨by decide, by decide, by decide⟩
  · exact ⟨by decide, by decide, by decide⟩
  · exact ⟨by decide, by decide, by decide⟩
  · exact ⟨by decide, by decide, by decide⟩
  · rw [isDigitCh_iff] at hd
    refine ⟨by omega, ?_, ?_⟩
    · intro h
      subst h
      revert hd
      decide
    · intro h
      subst h
      revert hd
      decide
  · exact ⟨by decide, by decide, by decide⟩
  · exact ⟨by decide, by decide, by decide⟩

theorem restSafe_cons {c : Char} (h : isDigitCh c = false) (s : List Char) :
    restSafe (c :: s) := by
  intro x hx
  simp at hx
  rw [hx] at h
  exact h

/-! ### Whitespace invariance of the parsers -/

theorem parseValue_ws (fuel : Nat) {w : List Char} (hw : allWs w) (s : List Char) :
    parseValue fuel (w ++ s) = parseValue fuel s := by
  cases fuel with
  | zero => rfl
  | succ f => simp only [parseValue, skipWs_append hw]

theorem parseItems_ws (fuel : Nat) {w : List Char} (hw : allWs w) (s : List Char) :
    parseItems fuel (w ++ s) = parseItems fuel s := by
  cases fuel with
  | zero => rfl
  | succ f => simp only [parseItems, parseValue_ws f hw]

theorem parseMembers_ws (fuel : Nat) {w : List Char} (hw : allWs w) (s : List Char) :
    parseMembers fuel (w ++ s) = parseMembers fuel s := by
  cases fuel with
  | zero => rfl
  | succ f => simp only [parseMembers, skipWs_append hw]

/-! ### The main round-trip theorem -/


theorem parse_print_all (fuel : Nat) :
    (∀ v d rest, jsonFuel v ≤ fuel → restSafe rest →
      parseValue fuel (printAt d v ++ rest) = some (v, rest)) ∧
    (∀ x xs d rest, fuelItems (x :: xs) ≤ fuel → restSafe rest →
      parseItems fuel (printElems d (x :: xs) ++ ']' :: rest) = some (x :: xs, rest)) ∧
    (∀ k v kvs d w rest, fuelMembers ((k, v) :: kvs) ≤ fuel → allWs w → restSafe rest →
      parseMembers fuel (printMembers d ((k, v) :: kvs) ++ w ++ '}' :: rest) =
        some ((k, v) :: kvs, rest)) := by
  induction fuel with
  | zero =>
    refine ⟨fun v d rest hf _ => absurd hf (by have := jsonFuel_pos v; omega),
      fun x xs d rest hf _ => absurd hf (by have := fuelItems_cons_pos x xs; omega),
      fun k v kvs d w rest hf _ _ =>
        absurd hf (by have := fuelMembers_cons_pos k v kvs; omega)⟩
  | succ f ih =>
    obtain ⟨ihV, ihI, ihM⟩ := ih
    refine ⟨?_, ?_, ?_⟩
    · intro v d rest hf hrest
      cases v with
      | null =>
        simp only [printAt, List.cons_append, List.nil_append, parseValue]
        rw [skipWs_cons_not (by decide)]
        simp +decide [dropLit]
      | bool b =>
        cases b
        · simp only [printAt, List.cons_append, List.nil_append, parseValue]
          rw [skipWs_cons_not (by decide)]
          simp +decide [dropLit]
        · simp only [printAt, List.cons_append, List.nil_append, parseValue]
          rw [skipWs_cons_not (by decide)]
          simp +decide [dropLit]
      | num i =>
        rcases intChars_shape i with ⟨hneg, hi⟩ | ⟨hpos, hi⟩
        · obtain ⟨c0, cs0, hc0, hd0⟩ := natChars_head i.natAbs
          have hpd : parseDigits (c0 :: (cs0 ++ rest)) 0 = (i.natAbs, rest) := by
            have h := parseDigits_natChars i.natAbs rest hrest
            rwa [hc0, List.cons_append] at h
          simp only [printAt, hi, List.cons_append, parseValue]
          rw [skipWs_cons_not (by decide)]
          simp +decide [hc0, hd0, hpd]
          rw [abs_of_neg hneg, neg_neg]
        · obtain ⟨c0, cs0, hc0, hd0⟩ := natChars_head i.natAbs
          have hd0' := isDigitCh_iff.1 hd0
          have hpd : parseDigits (c0 :: (cs0 ++ rest)) 0 = (i.natAbs, rest) := by
            have h := parseDigits_natChars i.natAbs rest hrest
            rwa [hc0, List.cons_append] at h
          have hn1 : ¬ c0 = 'n' := by intro h; subst h; revert hd0'; decide
          have hn2 : ¬ c0 = 't' := by intro h; subst h; revert hd0'; decide
          have hn3 : ¬ c0 = 'f' := by intro h; subst h; revert hd0'; decide
          have hn4 : ¬ c0 = '"' := by intro h; subst h; revert hd0'; decide
          have hn5 : ¬ c0 = '-' := by intro h; subst h; revert hd0'; decide
          simp only [printAt, hi, hc0, List.cons_append, parseValue]
          rw [skipWs_cons_not (by omega)]
          simp [hn1, hn2, hn3, hn4, hn5, hd0, hpd]
          exact hpos
      | str s =>
        simp only [printAt, quoteStr, List.cons_append, List.append_assoc, List.nil_append,
          parseValue]
        rw [skipWs_cons_not (by decide)]
        simp +decide [parseStrChars_esc]
      | arr xs =>
        cases xs with
        | nil =>
          simp only [printAt, printElems, List.cons_append, List.nil_append, parseValue]
          rw [skipWs_cons_not (by decide)]
          simp +decide [skipWs_cons_not (show ¬ (']' : Char).toNat ≤ 32 by decide)]
        | cons x xs =>
          obtain ⟨c0, cs0, hc0, hst⟩ := printAt_starts (d + 1) x
          obtain ⟨hws0, hrb0, hrc0⟩ := starter_facts hst
          have hbound : fuelItems (x :: xs) ≤ f := by
            simp only [jsonFuel] at hf
            omega
          have harr : printElems d (x :: xs) ++ ']' :: rest =
              c0 :: (cs0 ++ ((if xs.isEmpty then [] else [',', ' '])
                ++ (printElems d xs ++ ']' :: rest))) := by
            simp [printElems, hc0, List.append_assoc]
          have hitems := ihI x xs d rest hbound hrest
          rw [harr] at hitems
          simp only [printAt, List.cons_append, List.append_assoc, parseValue]
          rw [skipWs_cons_not (by decide)]
          simp +decide [harr, skipWs_cons_not hws0, hrb0, hitems]
      | obj kvs =>
        cases kvs with
        | nil =>
          simp only [printAt, printMembers, List.cons_append, List.nil_append, parseValue]
          rw [skipWs_cons_not (by decide)]
          simp +decide [skipWs_cons_ws (show ('\n' : Char).toNat ≤ 32 by decide),
            skipWs_append (allWs_tabs d),
            skipWs_cons_not (show ¬ ('}' : Char).toNat ≤ 32 by decide)]
        | cons kv kvs =>
          obtain ⟨k, v⟩ := kv
          have hbound : fuelMembers ((k, v) :: kvs) ≤ f := by
            simp only [jsonFuel] at hf
            omega
          have hobj : printMembers (d + 1) ((k, v) :: kvs) ++ (tabs d ++ '}' :: rest) =
              tabs (d + 1) ++ ('"' :: (escStr k.toList ++ '"' :: (':' :: '\t' ::
                (printAt (d + 1) v ++ ((if kvs.isEmpty then [] else [','])
                  ++ '\n' :: (printMembers (d + 1) kvs ++ (tabs d ++ '}' :: rest))))))) := by
            simp [printMembers, quoteStr, List.append_assoc]
          have hfull : parseMembers f ('"' :: (escStr k.toList ++ '"' :: (':' :: '\t' ::
              (printAt (d + 1) v ++ ((if kvs.isEmpty then [] else [','])
                ++ '\n' :: (printMembers (d + 1) kvs ++ (tabs d ++ '}' :: rest))))))) =
              some ((k, v) :: kvs, rest) := by
            have h := ihM k v kvs (d + 1) (tabs d) rest hbound (allWs_tabs d) hrest
            rw [List.append_assoc, hobj, parseMembers_ws f (allWs_tabs (d + 1))] at h
            exact h
          have hskip : skipWs (printMembers (d + 1) ((k, v) :: kvs)
              ++ (tabs d ++ '}' :: rest)) =
              '"' :: (escStr k.toList ++ '"' :: (':' :: '\t' ::
                (printAt (d + 1) v ++ ((if kvs.isEmpty then [] else [','])
                  ++ '\n' :: (printMembers (d + 1) kvs ++ (tabs d ++ '}' :: rest)))))) := by
            rw [hobj, skipWs_append (allWs_tabs (d + 1)), skipWs_cons_not (by decide)]
          simp only [printAt, List.cons_append, List.append_assoc, parseValue]
          rw [skipWs_cons_not (by decide)]
          simp +decide [skipWs_cons_ws (show ('\n' : Char).toNat ≤ 32 by decide),
            hskip, hfull]
          exact hfull
    · intro x xs d rest hf hrest
      have hx : jsonFuel x ≤ f := by
        simp only [fuelItems] at hf
        omega
      have hxs : fuelItems xs ≤ f := by
        simp only [fuelItems] at hf
        omega
      cases xs with
      | nil =>
        rw [show printElems d [x] ++ ']' :: rest = printAt (d + 1) x ++ (']' :: rest) by
          simp [printElems]]
        simp only [parseItems]
        rw [ihV x (d + 1) (']' :: rest) hx (@restSafe_cons ']' (by decide) rest)]
        simp +decide [skipWs_cons_not (show ¬ (']' : Char).toNat ≤ 32 by decide)]
      | cons y ys =>
        rw [show printElems d (x :: y :: ys) ++ ']' :: rest =
            printAt (d + 1) x ++ (',' :: ' ' :: (printElems d (y :: ys) ++ ']' :: rest)) by
          simp [printElems, List.append_assoc]]
        simp only [parseItems]
        rw [ihV x (d + 1) (',' :: ' ' :: (printElems d (y :: ys) ++ ']' :: rest)) hx
          (@restSafe_cons ',' (by decide) (' ' :: (printElems d (y :: ys) ++ ']' :: rest)))]
        have hnext : parseItems f (' ' :: (printElems d (y :: ys) ++ ']' :: rest)) =
            some (y :: ys, rest) := by
          rw [show (' ' :: (printElems d (y :: ys) ++ ']' :: rest)) =
            [' '] ++ (printElems d (y :: ys) ++ ']' :: rest) from rfl]
          rw [parseItems_ws f (by intro a ha; simp at ha; rw [ha]; decide)]
          exact ihI y ys d rest hxs hrest
        simp +decide [skipWs_cons_not (show ¬ (',' : Char).toNat ≤ 32 by decide), hnext]
    · intro k v kvs d w rest hf hw hrest
      have hv : jsonFuel v ≤ f := by
        simp only [fuelMembers] at hf
        omega
      have hkvs : fuelMembers kvs ≤ f := by
        simp only [fuelMembers] at hf
        omega
      cases kvs with
      | nil =>
        have hform : printMembers d [(k, v)] ++ w ++ '}' :: rest =
            tabs d ++ ('"' :: (escStr k.toList ++ '"' :: (':' :: '\t' ::
              (printAt d v ++ ('\n' :: (w ++ '}' :: rest)))))) := by
          simp [printMembers, quoteStr, List.append_assoc]
        have hval : parseValue f ('\t' :: (printAt d v ++ ('\n' :: (w ++ '}' :: rest)))) =
            some (v, '\n' :: (w ++ '}' :: rest)) := by
          rw [show ('\t' :: (printAt d v ++ ('\n' :: (w ++ '}' :: rest)))) =
            ['\t'] ++ (printAt d v ++ ('\n' :: (w ++ '}' :: rest))) from rfl]
          rw [parseValue_ws f (by intro a ha; simp at ha; rw [ha]; decide)]
          exact ihV v d ('\n' :: (w ++ '}' :: rest)) hv (@restSafe_cons '\n' (by decide) (w ++ '}' :: rest))
        have hskip2 : skipWs ('\n' :: (w ++ '}' :: rest)) = '}' :: rest := by
          rw [skipWs_cons_ws (by decide), skipWs_append hw, skipWs_cons_not (by decide)]
        rw [hform]
        simp only [parseMembers]
        rw [skipWs_append (allWs_tabs d), skipWs_cons_not (by decide)]
        simp +decide [parseStrChars_esc,
          skipWs_cons_not (show ¬ (':' : Char).toNat ≤ 32 by decide), hval, hskip2]
      | cons kv kvs2 =>
        obtain ⟨k2, v2⟩ := kv
        have hform : printMembers d ((k, v) :: (k2, v2) :: kvs2) ++ w ++ '}' :: rest =
            tabs d ++ ('"' :: (escStr k.toList ++ '"' :: (':' :: '\t' ::
              (printAt d v ++ (',' :: '\n' ::
                (printMembers d ((k2, v2) :: kvs2) ++ (w ++ '}' :: rest))))))) := by
          simp [printMembers, quoteStr, List.append_assoc]
        have hval : parseValue f ('\t' :: (printAt d v ++ (',' :: '\n' ::
            (printMembers d ((k2, v2) :: kvs2) ++ (w ++ '}' :: rest))))) =
            some (v, ',' :: '\n' :: (printMembers d ((k2, v2) :: kvs2)
              ++ (w ++ '}' :: rest))) := by
          rw [show ('\t' :: (printAt d v ++ (',' :: '\n' ::
              (printMembers d ((k2, v2) :: kvs2) ++ (w ++ '}' :: rest))))) =
            ['\t'] ++ (printAt d v ++ (',' :: '\n' ::
              (printMembers d ((k2, v2) :: kvs2) ++ (w ++ '}' :: rest)))) from rfl]
          rw [parseValue_ws f (by intro a ha; simp at ha; rw [ha]; decide)]
          exact ihV v d (',' :: '\n' :: (printMembers d ((k2, v2) :: kvs2)
            ++ (w ++ '}' :: rest))) hv (@restSafe_cons ','
              (by decide) ('\n' :: (printMembers d ((k2, v2) :: kvs2) ++ (w ++ '}' :: rest))))
        have hnext : parseMembers f ('\n' :: (printMembers d ((k2, v2) :: kvs2)
            ++ (w ++ '}' :: rest))) = some ((k2, v2) :: kvs2, rest) := by
          rw [show ('\n' :: (printMembers d ((k2, v2) :: kvs2) ++ (w ++ '}' :: rest))) =
            ['\n'] ++ (printMembers d ((k2, v2) :: kvs2) ++ (w ++ '}' :: rest)) from rfl]
          rw [parseMembers_ws f (by intro a ha; simp at ha; rw [ha]; decide)]
          rw [← List.append_assoc]
          exact ihM k2 v2 kvs2 d w rest hkvs hw hrest
        rw [hform]
        simp only [parseMembers]
        rw [skipWs_append (allWs_tabs d), skipWs_cons_not (by decide)]
        simp +decide [parseStrChars_esc,
          skipWs_cons_not (show ¬ (':' : Char).toNat ≤ 32 by decide),
          skipWs_cons_not (show ¬ (',' : Char).toNat ≤ 32 by decide), hval, hnext]

/-! ### Top-level round trip -/

theorem printAt_len_pos (d : Nat) (v : Json) : 1 ≤ (printAt d v).length := by
  obtain ⟨c, cs, h, _⟩ := printAt_starts d v
  simp [h]

mutual

theorem jsonFuel_le (v : Json) (d : Nat) : jsonFuel v ≤ (printAt d v).length + 1 := by
  cases v with
  | null => simp [jsonFuel]
  | bool b => simp [jsonFuel]
  | num i => simp [jsonFuel]
  | str s => simp [jsonFuel]
  | arr xs =>
    cases xs with
    | nil => simp [jsonFuel, fuelItems]
    | cons x xs =>
      have h := fuelItems_le x xs d
      simp only [jsonFuel, printAt, List.length_cons, List.length_append]
      omega
  | obj kvs =>
    cases kvs with
    | nil => simp [jsonFuel, fuelMembers]
    | cons kv kvs =>
      obtain ⟨k, v⟩ := kv
      have h := fuelMembers_le k v kvs (d + 1)
      simp only [jsonFuel, printAt, List.length_cons, List.length_append]
      omega
termination_by sizeOf v

theorem fuelItems_le (x : Json) (xs : List Json) (d : Nat) :
    fuelItems (x :: xs) ≤ (printElems d (x :: xs)).length + 2 := by
  cases xs with
  | nil =>
    have h := jsonFuel_le x (d + 1)
    simp only [fuelItems, printElems, List.isEmpty_nil, List.length_append]
    simp only [if_true]
    have hmax : max (jsonFuel x) (fuelItems ([] : List Json)) ≤ jsonFuel x := by
      simp [fuelItems]
    simp only [List.length_nil]
    omega
  | cons y ys =>
    have h1 := jsonFuel_le x (d + 1)
    have h2 := fuelItems_le y ys d
    have h3 : max (jsonFuel x) (fuelItems (y :: ys)) ≤ jsonFuel x + fuelItems (y :: ys) :=
      max_le (Nat.le_add_right _ _) (Nat.le_add_left _ _)
    have h4 := jsonFuel_pos x
    have h5 := printAt_len_pos (d + 1) x
    simp only [fuelItems, printElems, List.isEmpty_cons, List.length_append] at h2 ⊢
    omega
termination_by sizeOf (x :: xs)

theorem fuelMembers_le (k : String) (v : Json) (kvs : List (String × Json)) (d : Nat) :
    fuelMembers ((k, v) :: kvs) ≤ (printMembers d ((k, v) :: kvs)).length + 2 := by
  cases kvs with
  | nil =>
    have h := jsonFuel_le v d
    simp only [fuelMembers, printMembers, List.isEmpty_nil, List.length_append,
      List.length_cons, fuelMembers]
    have hmax : max (jsonFuel v) (fuelMembers ([] : List (String × Json))) ≤ jsonFuel v := by
      simp [fuelMembers]
    omega
  | cons kv2 kvs2 =>
    obtain ⟨k2, v2⟩ := kv2
    have h1 := jsonFuel_le v d
    have h2 := fuelMembers_le k2 v2 kvs2 d
    have h3 : max (jsonFuel v) (fuelMembers ((k2, v2) :: kvs2)) ≤
        jsonFuel v + fuelMembers ((k2, v2) :: kvs2) :=
      max_le (Nat.le_add_right _ _) (Nat.le_add_left _ _)
    have h4 := jsonFuel_pos v
    simp only [fuelMembers, printMembers, List.isEmpty_cons, List.length_append,
      List.length_cons] at h2 ⊢
    omega
termination_by sizeOf ((k, v) :: kvs)

end

theorem restSafe_nil : restSafe [] := by
  intro c hc
  simp at hc

theorem parseJson_printJson (v : Json) : parseJson (printJson v) = some v := by
  have hfuel : jsonFuel v ≤ (printAt 0 v).length + 1 := jsonFuel_le v 0
  have h := (parse_print_all ((printAt 0 v).length + 1)).1 v 0 [] hfuel restSafe_nil
  rw [List.append_nil] at h
  show (parseValue ((String.mk (printAt 0 v)).toList.length + 1)
    (String.mk (printAt 0 v)).toList).map (·.1) = some v
  have hlist : (String.mk (printAt 0 v)).toList = printAt 0 v := rfl
  rw [hlist, h]
  rfl

/-! ### C6: session round trip -/

/-- Claim C6: saving a session (`session_save` writes `cJSON_Print` of the
message array) and constructing a new session from the same file
(`session_new` parses and adopts the array) reproduces the same message
list, for any initial session and any sequence of add operations. -/
theorem session_roundtrip (init : Session) (ops : List SessionOp) :
    (sessionLoadStr (sessionSaveStr (applyOps init ops))).messages =
      (applyOps init ops).messages := by
  show (sessionLoadStr (printJson (Json.arr (applyOps init ops).messages))).messages = _
  rw [sessionLoadStr, parseJson_printJson]

/-! ### C7: cron fires at most once per minute -/

theorem cronTick_skip (e : CronExpr) (lastRun now : Nat) (tm : Tm)
    (h : minuteStart now ≤ lastRun) : cronTick e lastRun now tm = (lastRun, false) := by
  simp [cronTick, h]

theorem minuteStart_le (now : Nat) : minuteStart now ≤ now := by
  simp [minuteStart]

theorem mem_cronFires (e : CronExpr) :
    ∀ (ts : List (Nat × Tm)) (lr : Nat) (t : Nat), t ∈ cronFires e lr ts →
      lr < minuteStart t := by
  intro ts
  induction ts with
  | nil => intro lr t ht; simp [cronFires] at ht
  | cons p ts ih =>
    intro lr t ht
    obtain ⟨now, tm⟩ := p
    rw [cronFires] at ht
    by_cases hskip : minuteStart now ≤ lr
    · rw [cronTick_skip e lr now tm hskip] at ht
      simp at ht
      exact ih lr t ht
    · rw [cronTick] at ht
      rw [if_neg hskip] at ht
      by_cases hm : cron_matches e tm = true
      · rw [if_pos hm] at ht
        simp at ht
        rcases ht with rfl | ht
        · omega
        · have := ih now t ht
          have := minuteStart_le now
          omega
      · rw [if_neg hm] at ht
        simp at ht
        exact ih lr t ht

/-- Claim C7: over any sequence of scheduler-loop visits (each with its wall
time and local-time fields), the firing times of one job have strictly
increasing minute starts: the job never fires twice within the same
minute-aligned interval, and at most once per minute-aligned point. -/
theorem cron_at_most_once_per_minute (e : CronExpr) (ticks : List (Nat × Tm)) :
    (cronFires e 0 ticks).Pairwise (fun a b => minuteStart a < minuteStart b) := by
  suffices h : ∀ (ts : List (Nat × Tm)) (lr : Nat),
      (cronFires e lr ts).Pairwise (fun a b => minuteStart a < minuteStart b) from
    h ticks 0
  intro ts
  induction ts with
  | nil => intro lr; simp [cronFires]
  | cons p ts ih =>
    intro lr
    obtain ⟨now, tm⟩ := p
    rw [cronFires]
    by_cases hskip : minuteStart now ≤ lr
    · rw [cronTick_skip e lr now tm hskip]
      simpa using ih lr
    · rw [cronTick, if_neg hskip]
      by_cases hm : cron_matches e tm = true
      · rw [if_pos hm]
        simp only [if_true, List.singleton_append, List.pairwise_cons]
        refine ⟨fun t ht => ?_, ih now⟩
        have h2 := mem_cronFires e ts now t ht
        have h3 := minuteStart_le now
        omega
      · rw [if_neg hm]
        simpa using ih lr

/-! ### C8: cron_parse field-count acceptance -/

/-- Counterexample to claim C8 as stated: an expression with six
whitespace-separated fields is accepted by `cron_parse` (the claim says
only exactly five fields parse). -/
theorem cron_parse_six_fields_succeeds :
    (cron_parse "* * * * * *").isSome = true ∧
      (fieldsOf ("* * * * * *".toList.take 127)).length = 6 := by
  constructor
  · rfl
  · rfl

/-- Claim C8 amended: `cron_parse` succeeds exactly when the expression
(its first 127 bytes, the `strncpy` bound) splits into at least five
whitespace-separated fields; fields beyond the fifth are ignored. -/
theorem cron_parse_iff_five_fields (s : String) :
    (cron_parse s).isSome = true ↔ 5 ≤ (fieldsOf (s.toList.take 127)).length := by
  rw [cron_parse]
  rcases h : fieldsOf (s.toList.take 127) with _ | ⟨f1, _ | ⟨f2, _ | ⟨f3, _ | ⟨f4, _ | ⟨f5, r⟩⟩⟩⟩⟩
  · simp
  · simp
  · simp
  · simp
  · simp
  · simp

/-! ### C3: WebSocket handshake accept value -/

set_option maxRecDepth 100000 in
/-- Claim C3 refuted by the code: `ws.c` hard-codes the magic string
`258EAFA5-E914-47DA-95CA-5AB9DC085B7`, a corruption of the RFC 6455 GUID
`258EAFA5-E914-47DA-95CA-C5AB0DC85B11`. For the RFC sample key the
handshake therefore replies `aFEYm/UejhAnDlPkOwWSFFR/GeU=`, not the RFC
test vector `s3pPLMBiTxaQ9kYGzzhZRbK+xOo=`; the vector is produced exactly
when the true RFC magic is used instead. -/
theorem ws_accept_magic_bug :
    wsAccept "dGhlIHNhbXBsZSBub25jZQ==" = "aFEYm/UejhAnDlPkOwWSFFR/GeU=" ∧
      wsAccept "dGhlIHNhbXBsZSBub25jZQ==" ≠ "s3pPLMBiTxaQ9kYGzzhZRbK+xOo=" ∧
      wsAcceptWith rfc6455Magic "dGhlIHNhbXBsZSBub25jZQ==" =
        "s3pPLMBiTxaQ9kYGzzhZRbK+xOo=" ∧
      WS_MAGIC ≠ rfc6455Magic := by
  refine ⟨by decide, by decide, by decide, by decide⟩

/-! ### C1: dialect-A streamed text versus delivered deltas -/

theorem appendText_getD (t : Option String) (frag : String) :
    (appendText t frag).getD "" = t.getD "" ++ frag := by
  cases t <;> simp [appendText]

theorem streamStepA_text {σ : Type} (cb : σ → String → σ × Bool) (st : AState σ)
    (data : String) (st2 : AState σ) (cont : Bool) (frags : List String)
    (h : streamStepA (some cb) st data = (st2, cont, frags)) :
    st2.resp.text.getD "" =
      st.resp.text.getD "" ++ String.join (if cont then frags else []) := by
  unfold streamStepA at h
  repeat' split at h
  all_goals cases h
  all_goals simp_all [appendText_getD, String.join]

theorem strFoldl_append (l : List String) :
    ∀ acc : String, l.foldl (· ++ ·) acc = acc ++ String.join l := by
  induction l with
  | nil => intro acc; simp [String.join]
  | cons x xs ih =>
    intro acc
    simp only [List.foldl_cons, ih]
    have h2 : String.join (x :: xs) = ("" ++ x) ++ String.join xs := by
      rw [String.join, List.foldl_cons, ih ("" ++ x)]
    rw [h2]
    simp [String.append_assoc]

theorem join_append_str (a b : List String) :
    String.join (a ++ b) = String.join a ++ String.join b := by
  rw [String.join, List.foldl_append, strFoldl_append b]
  rfl

theorem map_fst_pair (l : List String) (b : Bool) :
    l.map ((fun x : String × Bool => x.1) ∘ fun f => (f, b)) = l := by
  induction l with
  | nil => rfl
  | cons a as iha => simp [Function.comp, iha]

theorem runStreamA_text {σ : Type} (cb : σ → String → σ × Bool) :
    ∀ (events : List String) (st : AState σ),
      ((runStreamA (some cb) st events).1.resp.text.getD "") =
        st.resp.text.getD "" ++ String.join
          (((runStreamA (some cb) st events).2.filter (·.2)).map (·.1)) := by
  intro events
  induction events with
  | nil => intro st; simp [runStreamA, String.join]
  | cons d ds ih =>
    intro st
    rcases hstep : streamStepA (some cb) st d with ⟨st1, cont, frags⟩
    have htext := streamStepA_text cb st d st1 cont frags hstep
    rw [runStreamA, hstep]
    cases cont with
    | true =>
      simp only [if_true] at htext ⊢
      simp only [ih st1, htext]
      have h1 : (frags.map (fun f => (f, true))).filter (fun x => x.2) =
          frags.map (fun f => (f, true)) := by
        apply List.filter_eq_self.mpr
        intro a ha
        rcases List.mem_map.1 ha with ⟨f, _, rfl⟩
        rfl
      rw [List.filter_append, h1, List.map_append, join_append_str, List.map_map]
      rw [map_fst_pair frags true, String.append_assoc]
    | false =>
      simp only [Bool.false_eq_true, if_false] at htext ⊢
      rw [htext]
      have h1 : (frags.map (fun f => (f, false))).filter (fun x => x.2) = [] := by
        simp
      rw [h1]
      simp [String.join]

/-- Claim C1 amended: for every dialect-A streamed call, `ChatResponse.text`
equals the concatenation, in arrival order, of exactly the text-delta
fragments for which the `on_delta` callback returned true. When the callback
aborts the stream, the fragment passed to the aborting invocation was
delivered to the callback but is excluded from the accumulated text (the
code returns before appending it). -/
theorem stream_text_eq_accepted_deltas {σ : Type} (cb : σ → String → σ × Bool) (s0 : σ)
    (events : List String) :
    ((providerChatStream (some cb) s0 events).1.text.getD "") =
      String.join
        ((((providerChatStream (some cb) s0 events).2).filter (·.2)).map (·.1)) := by
  have h := runStreamA_text cb events ⟨s0, aRespZero, none, none, ""⟩
  simp only [providerChatStream]
  rw [h]
  simp [aRespZero]

/-- Counterexample to claim C1 as stated: one `text_delta` event whose
fragment `he` is delivered to an aborting callback; the callback receives
the fragment but `ChatResponse.text` stays null, so the text does not equal
the concatenation of the delivered fragments. -/
theorem stream_aborting_delta_dropped :
    (providerChatStream (some (fun (u : Unit) _ => (u, false))) () [aTextDeltaHe]).1.text
        = none ∧
      (providerChatStream (some (fun (u : Unit) _ => (u, false))) () [aTextDeltaHe]).2
        = [("he", false)] ∧
      ¬ ((providerChatStream (some (fun (u : Unit) _ => (u, false))) ()
            [aTextDeltaHe]).1.text.getD "" =
          String.join ((providerChatStream (some (fun (u : Unit) _ => (u, false))) ()
            [aTextDeltaHe]).2.map (·.1))) := by
  refine ⟨rfl, rfl, by decide⟩

/-! ### C2: dialect-B tool-call slot finalization -/

theorem oaiToolDeltaAt_core {σ : Type} (st : BState σ) (idx : Int) (tc : Json) :
    (oaiToolDeltaAt st idx tc = st) ∨
      (idx < 32 ∧
        (oaiToolDeltaAt st idx tc).numTools =
          (if st.numTools ≤ idx then idx + 1 else st.numTools) ∧
        (oaiToolDeltaAt st idx tc).touched = (fun j => if j = idx then true else st.touched j) ∧
        (∀ j : Int, j ≠ idx → (oaiToolDeltaAt st idx tc).toolIds j = st.toolIds j ∧
          (oaiToolDeltaAt st idx tc).toolNames j = st.toolNames j ∧
          (oaiToolDeltaAt st idx tc).toolArgs j = st.toolArgs j)) := by
  unfold oaiToolDeltaAt
  split
  · exact Or.inl rfl
  · rename_i hguard
    refine Or.inr ⟨by omega, ?_, ?_, ?_⟩
    · repeat' split
      all_goals rfl
    · repeat' split
      all_goals rfl
    · intro j hj
      repeat' split
      all_goals simp [updSlot, hj]

theorem oaiToolDelta_core {σ : Type} (st : BState σ) (tc : Json) :
    (oaiToolDelta st tc = st) ∨
      ∃ idx : Int, idx < 32 ∧
        (oaiToolDelta st tc).numTools = (if st.numTools ≤ idx then idx + 1 else st.numTools) ∧
        (oaiToolDelta st tc).touched = (fun j => if j = idx then true else st.touched j) ∧
        (∀ j : Int, j ≠ idx → (oaiToolDelta st tc).toolIds j = st.toolIds j ∧
          (oaiToolDelta st tc).toolNames j = st.toolNames j ∧
          (oaiToolDelta st tc).toolArgs j = st.toolArgs j) := by
  rcases oaiToolDeltaAt_core st (match jsonGet tc "index" with
    | some j => jsonInt j
    | none => 0) tc with h | ⟨hlt, hnum, htou, hoff⟩
  · exact Or.inl h
  · exact Or.inr ⟨_, hlt, hnum, htou, hoff⟩

theorem oaiToolDelta_numTools_mono {σ : Type} (st : BState σ) (tc : Json) :
    st.numTools ≤ (oaiToolDelta st tc).numTools := by
  rcases oaiToolDelta_core st tc with h | ⟨idx, hlt, hnum, htou, hoff⟩
  · rw [h]
  · rw [hnum]
    split
    all_goals omega

theorem oaiToolDelta_touched_lt {σ : Type} (st : BState σ) (tc : Json)
    (h1 : ∀ i : Int, 0 ≤ i → st.touched i = true → i < st.numTools) :
    ∀ i : Int, 0 ≤ i → (oaiToolDelta st tc).touched i = true →
      i < (oaiToolDelta st tc).numTools := by
  intro i hi ht
  rcases oaiToolDelta_core st tc with h | ⟨idx, hlt, hnum, htou, hoff⟩
  · rw [h] at ht ⊢
    exact h1 i hi ht
  · rw [htou] at ht
    simp only [] at ht
    rw [hnum]
    by_cases hieq : i = idx
    · subst hieq
      split
      all_goals omega
    · rw [if_neg hieq] at ht
      have := h1 i hi ht
      split
      all_goals omega

theorem oaiToolDelta_untouched {σ : Type} (st : BState σ) (tc : Json) (i : Int)
    (ht : (oaiToolDelta st tc).touched i = false) :
    (oaiToolDelta st tc).toolIds i = st.toolIds i ∧
      (oaiToolDelta st tc).toolNames i = st.toolNames i ∧
      (oaiToolDelta st tc).toolArgs i = st.toolArgs i ∧
      st.touched i = false := by
  rcases oaiToolDelta_core st tc with h | ⟨idx, hlt, hnum, htou, hoff⟩
  · rw [h] at ht ⊢
    exact ⟨rfl, rfl, rfl, ht⟩
  · rw [htou] at ht
    simp only [] at ht
    by_cases hieq : i = idx
    · rw [if_pos hieq] at ht
      exact absurd ht (by simp)
    · rw [if_neg hieq] at ht
      obtain ⟨ha, hb, hc⟩ := hoff i hieq
      exact ⟨ha, hb, hc, ht⟩

theorem oaiToolDelta_bInv {σ : Type} (st : BState σ) (tc : Json) (h : bInv st) :
    bInv (oaiToolDelta st tc) := by
  obtain ⟨h1, h2, h3⟩ := h
  refine ⟨oaiToolDelta_touched_lt st tc h1, ?_, ?_⟩
  · intro i ht
    obtain ⟨ha, hb, hc, hst⟩ := oaiToolDelta_untouched st tc i ht
    obtain ⟨ha2, hb2, hc2⟩ := h2 i hst
    exact ⟨ha.trans ha2, hb.trans hb2, hc.trans hc2⟩
  · exact le_trans h3 (oaiToolDelta_numTools_mono st tc)

theorem foldl_oaiToolDelta_bInv {σ : Type} (tcs : List Json) :
    ∀ st : BState σ, bInv st → bInv (tcs.foldl oaiToolDelta st) := by
  induction tcs with
  | nil => intro st h; exact h
  | cons tc tcs ih => intro st h; exact ih _ (oaiToolDelta_bInv st tc h)

theorem bTables_bInv {σ τ : Type} (a : BState σ) (b : BState τ)
    (h : bTables a = bTables b) (hi : bInv a) : bInv b := by
  simp only [bTables, Prod.mk.injEq] at h
  obtain ⟨e1, e2, e3, e4, e5⟩ := h
  unfold bInv at hi ⊢
  rw [← e1, ← e2, ← e3, ← e4, ← e5]
  exact hi

theorem bSetFinish_tables {σ : Type} (st : BState σ) (choice : Json) :
    bTables (bSetFinish st choice) = bTables st := by
  unfold bSetFinish
  repeat' split
  all_goals rfl

theorem bContentDelta_tables {σ : Type} (cb : Option (σ → String → σ × Bool))
    (st : BState σ) (delta : Json) :
    bTables (bContentDelta cb st delta).1 = bTables st := by
  unfold bContentDelta
  repeat' split
  all_goals rfl

theorem bSetUsage_tables {σ : Type} (st : BState σ) (ev : Json) :
    bTables (bSetUsage st ev) = bTables st := by
  unfold bSetUsage
  repeat' split
  all_goals rfl

theorem bToolDeltas_bInv {σ : Type} (st : BState σ) (delta : Json) (h : bInv st) :
    bInv (bToolDeltas st delta) := by
  unfold bToolDeltas
  split
  · exact foldl_oaiToolDelta_bInv _ _ h
  · exact h

theorem oaiStep_bInv {σ : Type} (cb : Option (σ → String → σ × Bool)) (st : BState σ)
    (data : String) (h : bInv st) : bInv (oaiStep cb st data).1 := by
  unfold oaiStep
  split
  · exact h
  · split
    · exact h
    · next ev _ =>
        split
        · next choice rest _ =>
            split
            · next delta _ =>
                split
                · next st2 heq =>
                    have htab : bTables st2 = bTables st := by
                      have h1 := bContentDelta_tables cb (bSetFinish st choice) delta
                      rw [heq] at h1
                      exact h1.trans (bSetFinish_tables st choice)
                    have h2 : bInv (bToolDeltas st2 delta) :=
                      bToolDeltas_bInv st2 delta (bTables_bInv st st2 htab.symm h)
                    exact bTables_bInv _ _
                      (bSetUsage_tables (bToolDeltas st2 delta) ev).symm h2
                · next st2 heq =>
                    have htab : bTables st2 = bTables st := by
                      have h1 := bContentDelta_tables cb (bSetFinish st choice) delta
                      rw [heq] at h1
                      exact h1.trans (bSetFinish_tables st choice)
                    exact bTables_bInv st st2 htab.symm h
            · have h2 : bInv (bSetFinish st choice) :=
                bTables_bInv st _ (bSetFinish_tables st choice).symm h
              exact bTables_bInv _ _
                (bSetUsage_tables (bSetFinish st choice) ev).symm h2
        all_goals exact h

theorem runStreamB_bInv {σ : Type} (cb : Option (σ → String → σ × Bool))
    (events : List String) :
    ∀ st : BState σ, bInv st → bInv (runStreamB cb st events) := by
  induction events with
  | nil => intro st h; exact h
  | cons d ds ih =>
    intro st h
    unfold runStreamB
    split
    · next st1 heq =>
        have h1 := oaiStep_bInv cb st d h
        rw [heq] at h1
        exact ih st1 h1
    · next st1 heq =>
        have h1 := oaiStep_bInv cb st d h
        rw [heq] at h1
        exact h1

theorem bStateZero_bInv {σ : Type} (s0 : σ) : bInv (bStateZero s0) :=
  ⟨fun _ _ ht => absurd ht (by simp [bStateZero]),
   fun _ _ => ⟨rfl, rfl, rfl⟩, le_refl 0⟩

theorem oaiFinalize_spec {σ : Type} (st : BState σ) (h : 0 ≤ st.numTools) :
    (oaiFinalize st).length = st.numTools.toNat ∧
      oaiFinalize st = (List.range st.numTools.toNat).map
        (fun i : Nat => ⟨st.toolIds (i : Int), st.toolNames (i : Int), st.toolArgs (i : Int)⟩) := by
  unfold oaiFinalize
  split
  · exact ⟨by simp, rfl⟩
  · next hn =>
      have h0 : st.numTools.toNat = 0 := by omega
      rw [h0]
      simp

/-- C2 (counterexample to the claim as stated): a dialect-B stream that
touches slots 0 and 2 but never slot 1 finalizes to a three-element
tool-call list in which the untouched slot 1 appears as an all-none entry;
it is not elided. -/
theorem openai_untouched_slot_not_elided :
    (openaiChatStream (none : Option (Unit → String → Unit × Bool)) ()
        [bSlot0Event, bSlot2Event]).1 =
      [⟨some "a", none, none⟩, ⟨none, none, none⟩, ⟨some "b", none, none⟩] ∧
      (runStreamB (none : Option (Unit → String → Unit × Bool)) (bStateZero ())
        [bSlot0Event, bSlot2Event]).touched 1 = false := by
  exact ⟨by decide, by decide⟩

/-- C2 (amended): for every dialect-B streamed response, the finalized
tool-call list of `openai_chat_stream` has exactly `num_tools` entries and
copies every slot `0 .. num_tools-1` in ascending index order, whether or
not the server ever touched it; every touched slot index lies below
`num_tools`, and a slot the server skipped contributes an entry whose id,
name and arguments are all absent (it is emitted, not elided). -/
theorem openai_stream_slots {σ : Type} (cb : Option (σ → String → σ × Bool))
    (s0 : σ) (events : List String) :
    (openaiChatStream cb s0 events).1.length =
        (openaiChatStream cb s0 events).2.numTools.toNat ∧
      (openaiChatStream cb s0 events).1 =
        (List.range (openaiChatStream cb s0 events).2.numTools.toNat).map
          (fun i : Nat => ⟨(openaiChatStream cb s0 events).2.toolIds (i : Int),
            (openaiChatStream cb s0 events).2.toolNames (i : Int),
            (openaiChatStream cb s0 events).2.toolArgs (i : Int)⟩) ∧
      (∀ i : Int, 0 ≤ i → (openaiChatStream cb s0 events).2.touched i = true →
        i < (openaiChatStream cb s0 events).2.numTools) ∧
      (∀ i : Int, (openaiChatStream cb s0 events).2.touched i = false →
        (openaiChatStream cb s0 events).2.toolIds i = none ∧
          (openaiChatStream cb s0 events).2.toolNames i = none ∧
          (openaiChatStream cb s0 events).2.toolArgs i = none) := by
  obtain ⟨h1, h2, h3⟩ :=
    runStreamB_bInv cb events (bStateZero s0) (bStateZero_bInv s0)
  obtain ⟨l1, l2⟩ := oaiFinalize_spec (runStreamB cb (bStateZero s0) events) h3
  exact ⟨l1, l2, h1, h2⟩

/-! ### C4/C5/C9/C10: the agent turn loop -/

theorem getLast_concat {α : Type} (l : List α) (a : α) :
    (l ++ [a]).getLast? = some a := by
  simp

theorem roleIsAssistant_userMsgJson (t : String) :
    roleIsAssistant (userMsgJson t) = false := rfl

theorem roleIsAssistant_toolResultMsg (i o : String) :
    roleIsAssistant (toolResultMsg i o) = false := rfl

theorem roleIsAssistant_assistantToolUseMsg (i n j : String) :
    roleIsAssistant (assistantToolUseMsg i n j) = true := rfl

theorem lastNotAssistant_addUser (s : Session) (u : String) :
    lastNotAssistant (sessionAddUser s u) = true := by
  simp [lastNotAssistant, sessionAddUser, getLast_concat, roleIsAssistant_userMsgJson]

theorem lastNotAssistant_addToolResult (s : Session) (i o : String) :
    lastNotAssistant (sessionAddToolResult s i o) = true := by
  simp [lastNotAssistant, sessionAddToolResult, getLast_concat, roleIsAssistant_toolResultMsg]

theorem sessionAddToolUse_fresh (s : Session) (i n j : String)
    (h : lastNotAssistant s = true) :
    sessionAddToolUse s i n j = ⟨s.messages ++ [assistantToolUseMsg i n j]⟩ := by
  cases hm : s.messages.getLast? with
  | none => simp [sessionAddToolUse, hm]
  | some m =>
    have hr : roleIsAssistant m = false := by
      unfold lastNotAssistant at h
      rw [hm] at h
      simpa using h
    simp [sessionAddToolUse, hm, hr]

theorem runTools_messages (exec : String → String → String) (tcs : List ToolCall) :
    ∀ s : Session, lastNotAssistant s = true →
      (runTools exec s tcs).messages = s.messages ++ tcs.flatMap (toolPairMsgs exec) ∧
        lastNotAssistant (runTools exec s tcs) = true := by
  induction tcs with
  | nil => intro s h; exact ⟨by simp [runTools], h⟩
  | cons tc tcs ih =>
    intro s h
    have hone : runTools exec s (tc :: tcs) =
        runTools exec (sessionAddToolResult (sessionAddToolUse s tc.id tc.name tc.inputJson)
          tc.id (exec tc.name tc.inputJson)) tcs := rfl
    have hmsg : (sessionAddToolResult (sessionAddToolUse s tc.id tc.name tc.inputJson)
        tc.id (exec tc.name tc.inputJson)).messages = s.messages ++ toolPairMsgs exec tc := by
      rw [sessionAddToolUse_fresh s tc.id tc.name tc.inputJson h]
      simp [sessionAddToolResult, toolPairMsgs]
    obtain ⟨ihm, ihl⟩ := ih _ (lastNotAssistant_addToolResult _ tc.id (exec tc.name tc.inputJson))
    constructor
    · rw [hone, ihm, hmsg]
      simp [toolPairMsgs]
    · rw [hone]
      exact ihl

theorem agentLoop_spec (provider : Nat → ChatResponse) (exec : String → String → String) :
    ∀ fuel t (s : Session) fin, lastNotAssistant s = true →
      agentLoop provider exec t fuel s fin =
        (⟨s.messages ++ loopMsgs provider exec t fuel⟩,
          loopFinal provider t fuel fin, loopCalls provider t fuel) := by
  intro fuel
  induction fuel with
  | zero =>
    intro t s fin h
    simp [agentLoop, loopMsgs, loopFinal, loopCalls]
  | succ fuel ih =>
    intro t s fin h
    by_cases hemp : (provider t).toolCalls.isEmpty
    · cases htx : (provider t).text with
      | none => simp [agentLoop, loopMsgs, loopFinal, loopCalls, hemp, htx]
      | some tx =>
        simp [agentLoop, loopMsgs, loopFinal, loopCalls, hemp, htx, sessionAddAssistant]
    · obtain ⟨hmsgs, hlast⟩ := runTools_messages exec (provider t).toolCalls s h
      have hr := ih (t + 1) (runTools exec s (provider t).toolCalls)
        (match (provider t).text with | some tx => some tx | none => fin) hlast
      simp [agentLoop, loopMsgs, loopFinal, loopCalls, hemp, hr, hmsgs]

theorem loopCalls_le (provider : Nat → ChatResponse) :
    ∀ fuel t, loopCalls provider t fuel ≤ fuel := by
  intro fuel
  induction fuel with
  | zero => intro t; simp [loopCalls]
  | succ fuel ih =>
    intro t
    unfold loopCalls
    split
    · omega
    · have := ih (t + 1)
      omega

theorem loopCalls_all (provider : Nat → ChatResponse) :
    ∀ fuel t, (∀ i, i < fuel → ((provider (t + i)).toolCalls.isEmpty = false)) →
      loopCalls provider t fuel = fuel := by
  intro fuel
  induction fuel with
  | zero => intro t _; rfl
  | succ fuel ih =>
    intro t h
    have h0 : (provider t).toolCalls.isEmpty = false := by
      have := h 0 (by omega)
      simpa using this
    unfold loopCalls
    rw [h0]
    simp only [Bool.false_eq_true, if_false]
    rw [ih (t + 1) (fun i hi => by
      have := h (i + 1) (by omega)
      simpa [Nat.add_assoc, Nat.add_comm 1 i] using this)]

theorem loopFinal_all (provider : Nat → ChatResponse) :
    ∀ fuel t fin, (∀ i, i < fuel → ((provider (t + i)).toolCalls.isEmpty = false)) →
      loopFinal provider t fuel fin =
        (match lastTextIn provider t fuel with
          | some x => some x
          | none => fin) := by
  intro fuel
  induction fuel with
  | zero => intro t fin _; rfl
  | succ fuel ih =>
    intro t fin h
    have h0 : (provider t).toolCalls.isEmpty = false := by
      have := h 0 (by omega)
      simpa using this
    have hrec := ih (t + 1) (match (provider t).text with
        | some tx => some tx
        | none => fin)
      (fun i hi => by
        have := h (i + 1) (by omega)
        simpa [Nat.add_assoc, Nat.add_comm 1 i] using this)
    unfold loopFinal
    simp only []
    rw [h0]
    simp only [Bool.false_eq_true, if_false]
    rw [hrec]
    have hunf : lastTextIn provider t (fuel + 1) =
        (match lastTextIn provider (t + 1) fuel with
          | some x => some x
          | none => (provider t).text) := rfl
    rw [hunf]
    cases lastTextIn provider (t + 1) fuel with
    | some x => rfl
    | none =>
      cases (provider t).text with
      | none => rfl
      | some tx => rfl

/-- C5: `agent_turn` makes at most `max_turns = 10` provider calls; when
every provider response carries at least one tool call the loop runs the
full 10 iterations and returns the last text the model emitted during the
turn, or nothing when it never emitted any. -/
theorem agent_turn_max_turns (provider : Nat → ChatResponse)
    (exec : String → String → String) (s : Session) (userMsg : String) :
    (agentTurn provider exec s userMsg).2.2 ≤ 10 ∧
      ((∀ t, t < 10 → (provider t).toolCalls.isEmpty = false) →
        (agentTurn provider exec s userMsg).2.2 = 10 ∧
          (agentTurn provider exec s userMsg).2.1 = lastTextIn provider 0 10) := by
  have hspec := agentLoop_spec provider exec 10 0 (sessionAddUser s userMsg) none
    (lastNotAssistant_addUser s userMsg)
  unfold agentTurn
  rw [hspec]
  refine ⟨loopCalls_le provider 10 0, fun hall => ⟨?_, ?_⟩⟩
  · exact loopCalls_all provider 10 0 (fun i hi => by simpa using hall i hi)
  · rw [loopFinal_all provider 10 0 none (fun i hi => by simpa using hall i hi)]
    cases lastTextIn provider 0 10 with
    | none => rfl
    | some x => rfl

theorem toolUseIdsOf_assistantToolUseMsg (i n j : String) :
    toolUseIdsOf (assistantToolUseMsg i n j) = [i] := rfl

theorem toolResultIdsOf_assistantToolUseMsg (i n j : String) :
    toolResultIdsOf (assistantToolUseMsg i n j) = [] := rfl

theorem toolUseIdsOf_toolResultMsg (i o : String) :
    toolUseIdsOf (toolResultMsg i o) = [] := rfl

theorem toolResultIdsOf_toolResultMsg (i o : String) :
    toolResultIdsOf (toolResultMsg i o) = [i] := rfl

theorem toolUseIdsOf_assistantTextMsg (t : String) :
    toolUseIdsOf (assistantTextMsg t) = [] := rfl

theorem toolResultIdsOf_assistantTextMsg (t : String) :
    toolResultIdsOf (assistantTextMsg t) = [] := rfl

theorem pairs_useIds (exec : String → String → String) (tcs : List ToolCall) :
    (tcs.flatMap (toolPairMsgs exec)).flatMap toolUseIdsOf = tcs.map (·.id) := by
  induction tcs with
  | nil => rfl
  | cons tc tcs ih =>
    simp [toolPairMsgs, ih, toolUseIdsOf_assistantToolUseMsg, toolUseIdsOf_toolResultMsg]

theorem pairs_resIds (exec : String → String → String) (tcs : List ToolCall) :
    (tcs.flatMap (toolPairMsgs exec)).flatMap toolResultIdsOf = tcs.map (·.id) := by
  induction tcs with
  | nil => rfl
  | cons tc tcs ih =>
    simp [toolPairMsgs, ih, toolResultIdsOf_assistantToolUseMsg, toolResultIdsOf_toolResultMsg]

theorem loopMsgs_useIds (provider : Nat → ChatResponse) (exec : String → String → String) :
    ∀ fuel t, (loopMsgs provider exec t fuel).flatMap toolUseIdsOf =
      (turnToolCalls provider t fuel).map (·.id) := by
  intro fuel
  induction fuel with
  | zero => intro t; rfl
  | succ fuel ih =>
    intro t
    by_cases hemp : (provider t).toolCalls.isEmpty
    · cases htx : (provider t).text with
      | none => simp [loopMsgs, turnToolCalls, hemp, htx]
      | some tx => simp [loopMsgs, turnToolCalls, hemp, htx, toolUseIdsOf_assistantTextMsg]
    · simp [loopMsgs, turnToolCalls, hemp, ih, pairs_useIds]

theorem loopMsgs_resIds (provider : Nat → ChatResponse) (exec : String → String → String) :
    ∀ fuel t, (loopMsgs provider exec t fuel).flatMap toolResultIdsOf =
      (turnToolCalls provider t fuel).map (·.id) := by
  intro fuel
  induction fuel with
  | zero => intro t; rfl
  | succ fuel ih =>
    intro t
    by_cases hemp : (provider t).toolCalls.isEmpty
    · cases htx : (provider t).text with
      | none => simp [loopMsgs, turnToolCalls, hemp, htx]
      | some tx => simp [loopMsgs, turnToolCalls, hemp, htx, toolResultIdsOf_assistantTextMsg]
    · simp [loopMsgs, turnToolCalls, hemp, ih, pairs_resIds]

theorem turnIds_sublist (provider : Nat → ChatResponse) :
    ∀ fuel t, List.Sublist ((turnToolCalls provider t fuel).map (·.id))
      (toolIdsFrom provider t fuel) := by
  intro fuel
  induction fuel with
  | zero => intro t; simp [turnToolCalls, toolIdsFrom]
  | succ fuel ih =>
    intro t
    unfold turnToolCalls toolIdsFrom
    split
    · simp
    · simp only [List.map_append]
      exact List.Sublist.append (List.Sublist.refl _) (ih (t + 1))

theorem pairs_append_pairing (exec : String → String → String) (rest : List Json)
    (hrest : ∀ i X m, rest[i]? = some m → X ∈ toolUseIdsOf m →
      ∃ m2, rest[i + 1]? = some m2 ∧ toolResultIdsOf m2 = [X]) :
    ∀ tcs : List ToolCall, ∀ i X m,
      (tcs.flatMap (toolPairMsgs exec) ++ rest)[i]? = some m → X ∈ toolUseIdsOf m →
      ∃ m2, (tcs.flatMap (toolPairMsgs exec) ++ rest)[i + 1]? = some m2 ∧
        toolResultIdsOf m2 = [X] := by
  intro tcs
  induction tcs generalizing rest hrest with
  | nil =>
    intro i X m hm hX
    simp only [List.flatMap_nil, List.nil_append] at hm ⊢
    exact hrest i X m hm hX
  | cons tc tcs ih =>
    intro i X m hm hX
    simp only [List.flatMap_cons, toolPairMsgs, List.cons_append, List.append_assoc,
      List.nil_append] at hm ⊢
    match i with
    | 0 =>
      simp only [List.getElem?_cons_zero, Option.some.injEq] at hm
      rw [← hm] at hX
      rw [toolUseIdsOf_assistantToolUseMsg] at hX
      simp only [List.mem_singleton] at hX
      subst hX
      refine ⟨toolResultMsg tc.id (exec tc.name tc.inputJson), ?_, ?_⟩
      · simp
      · rw [toolResultIdsOf_toolResultMsg]
    | 1 =>
      simp only [List.getElem?_cons_succ, List.getElem?_cons_zero, Option.some.injEq] at hm
      rw [← hm] at hX
      rw [toolUseIdsOf_toolResultMsg] at hX
      simp at hX
    | i + 2 =>
      simp only [List.getElem?_cons_succ] at hm ⊢
      exact ih rest hrest i X m hm hX

theorem loopMsgs_pairing (provider : Nat → ChatResponse) (exec : String → String → String) :
    ∀ fuel t i X m, (loopMsgs provider exec t fuel)[i]? = some m → X ∈ toolUseIdsOf m →
      ∃ m2, (loopMsgs provider exec t fuel)[i + 1]? = some m2 ∧ toolResultIdsOf m2 = [X] := by
  intro fuel
  induction fuel with
  | zero =>
    intro t i X m hm hX
    simp [loopMsgs] at hm
  | succ fuel ih =>
    intro t i X m hm hX
    by_cases hemp : (provider t).toolCalls.isEmpty
    · cases htx : (provider t).text with
      | none =>
        rw [show loopMsgs provider exec t (fuel + 1) = [] from by
          simp [loopMsgs, hemp, htx]] at hm
        simp at hm
      | some tx =>
        rw [show loopMsgs provider exec t (fuel + 1) = [assistantTextMsg tx] from by
          simp [loopMsgs, hemp, htx]] at hm
        match i with
        | 0 =>
          simp only [List.getElem?_cons_zero, Option.some.injEq] at hm
          rw [← hm] at hX
          rw [toolUseIdsOf_assistantTextMsg] at hX
          simp at hX
        | i + 1 =>
          simp at hm
    · rw [show loopMsgs provider exec t (fuel + 1) =
          (provider t).toolCalls.flatMap (toolPairMsgs exec) ++
            loopMsgs provider exec (t + 1) fuel from by
        simp [loopMsgs, hemp]] at hm ⊢
      exact pairs_append_pairing exec (loopMsgs provider exec (t + 1) fuel)
        (ih (t + 1)) (provider t).toolCalls i X m hm hX

/-- C4: after any completed `agent_turn` (with the provider's tool-call ids
pairwise distinct over the turn), the turn appends the user message followed
by `loopMsgs`; within those appended messages every `tool_use` id occurs as
a `tool_use_id` of a `tool_result` exactly as often as it occurs as a
`tool_use` (and at most once), and each message carrying a `tool_use` block
with id X is immediately followed by a message whose `tool_result` blocks
are exactly one with `tool_use_id` X: no `tool_use` is left unanswered. -/
theorem agent_tool_closure (provider : Nat → ChatResponse)
    (exec : String → String → String) (s : Session) (userMsg : String)
    (h : (allToolIds provider).Nodup) :
    (agentTurn provider exec s userMsg).1.messages
        = s.messages ++ userMsgJson userMsg :: loopMsgs provider exec 0 10 ∧
      (∀ X : String,
        ((loopMsgs provider exec 0 10).flatMap toolUseIdsOf).count X =
          ((loopMsgs provider exec 0 10).flatMap toolResultIdsOf).count X ∧
        ((loopMsgs provider exec 0 10).flatMap toolUseIdsOf).count X ≤ 1) ∧
      (∀ i : Nat, ∀ X : String, ∀ m : Json,
        (loopMsgs provider exec 0 10)[i]? = some m → X ∈ toolUseIdsOf m →
          ∃ m2 : Json, (loopMsgs provider exec 0 10)[i + 1]? = some m2 ∧
            toolResultIdsOf m2 = [X]) := by
  refine ⟨?_, ?_, loopMsgs_pairing provider exec 10 0⟩
  · have hspec := agentLoop_spec provider exec 10 0 (sessionAddUser s userMsg) none
      (lastNotAssistant_addUser s userMsg)
    unfold agentTurn
    rw [hspec]
    simp [sessionAddUser]
  · intro X
    rw [loopMsgs_useIds provider exec 10 0, loopMsgs_resIds provider exec 10 0]
    have hnodup : ((turnToolCalls provider 0 10).map (·.id)).Nodup :=
      List.Nodup.sublist (turnIds_sublist provider 10 0) h
    exact ⟨rfl, List.nodup_iff_count_le_one.mp hnodup X⟩

/-- Witness for C4 at a concrete provider, executor and session. -/
theorem agent_tool_closure_witness :
    (agentTurn demoProvider demoExec sessionNewEmpty "hi").1.messages
        = sessionNewEmpty.messages ++
          userMsgJson "hi" :: loopMsgs demoProvider demoExec 0 10 :=
  (agent_tool_closure demoProvider demoExec sessionNewEmpty "hi" (by decide)).1

theorem pairs_length (exec : String → String → String) (tcs : List ToolCall) :
    (tcs.flatMap (toolPairMsgs exec)).length = 2 * tcs.length := by
  induction tcs with
  | nil => rfl
  | cons tc tcs ih =>
    simp only [List.flatMap_cons, List.length_append, ih, toolPairMsgs,
      List.length_cons, List.length_nil]
    omega

theorem msgBlocks_assistantToolUseMsg (i n j : String) :
    msgBlocks (assistantToolUseMsg i n j) = [toolUseBlock i n j] := rfl

theorem blockType_toolUseBlock (i n j : String) :
    blockType (toolUseBlock i n j) = some "tool_use" := rfl

theorem msgBlocks_toolResultMsg (i o : String) :
    msgBlocks (toolResultMsg i o) = [Json.obj [("type", Json.str "tool_result"),
      ("tool_use_id", Json.str i), ("content", Json.str o)]] := rfl

theorem blockType_toolResultBlock (i o : String) :
    blockType (Json.obj [("type", Json.str "tool_result"),
      ("tool_use_id", Json.str i), ("content", Json.str o)]) = some "tool_result" := rfl

/-- C9: a provider response carrying `n ≥ 2` tool calls makes the turn loop
append `2n` messages, strictly alternating an assistant message holding
exactly one `tool_use` block with a user message holding the matching
`tool_result`: the blocks are never coalesced into one assistant message,
because each `tool_result` lands before the next `tool_use`. -/
theorem agent_tools_alternate (exec : String → String → String) (s : Session)
    (tcs : List ToolCall) (h : lastNotAssistant s = true) (hn : 2 ≤ tcs.length) :
    (runTools exec s tcs).messages = s.messages ++ tcs.flatMap (fun tc =>
      [assistantToolUseMsg tc.id tc.name tc.inputJson,
        toolResultMsg tc.id (exec tc.name tc.inputJson)]) ∧
      (tcs.flatMap (toolPairMsgs exec)).length = 2 * tcs.length ∧
      (∀ tc ∈ tcs,
        (msgBlocks (assistantToolUseMsg tc.id tc.name tc.inputJson)).length = 1 ∧
        roleIsAssistant (assistantToolUseMsg tc.id tc.name tc.inputJson) = true ∧
        roleIsAssistant (toolResultMsg tc.id (exec tc.name tc.inputJson)) = false ∧
        toolUseIdsOf (assistantToolUseMsg tc.id tc.name tc.inputJson) = [tc.id] ∧
        toolResultIdsOf (toolResultMsg tc.id (exec tc.name tc.inputJson)) = [tc.id]) := by
  refine ⟨(runTools_messages exec tcs s h).1, pairs_length exec tcs, ?_⟩
  intro tc _
  exact ⟨rfl, rfl, rfl, rfl, rfl⟩

/-- Witness for C9 at a concrete two-tool-call response. -/
theorem agent_tools_alternate_witness :
    (runTools demoExec sessionNewEmpty
        [⟨"a", "n1", "x"⟩, ⟨"b", "n2", "y"⟩]).messages =
      sessionNewEmpty.messages ++
        ([⟨"a", "n1", "x"⟩, ⟨"b", "n2", "y"⟩] : List ToolCall).flatMap (fun tc =>
          [assistantToolUseMsg tc.id tc.name tc.inputJson,
            toolResultMsg tc.id (demoExec tc.name tc.inputJson)]) :=
  (agent_tools_alternate demoExec sessionNewEmpty
    [⟨"a", "n1", "x"⟩, ⟨"b", "n2", "y"⟩] (by decide) (by decide)).1

/-- C10: when a provider response carries both tool calls and text, the
iteration appends only the `tool_use`/`tool_result` pair messages — none of
their blocks is a `text` block, so the text never enters the session — and
the loop recurses with the text retained solely as the fallback return
value. -/
theorem agent_text_with_tools_fallback (provider : Nat → ChatResponse)
    (exec : String → String → String) (s : Session) (fin : Option String)
    (t fuel : Nat) (tx : String)
    (h : lastNotAssistant s = true)
    (htools : (provider t).toolCalls.isEmpty = false)
    (htext : (provider t).text = some tx) :
    (runTools exec s (provider t).toolCalls).messages =
        s.messages ++ (provider t).toolCalls.flatMap (toolPairMsgs exec) ∧
      (∀ m ∈ (provider t).toolCalls.flatMap (toolPairMsgs exec),
        ∀ b ∈ msgBlocks m, blockType b ≠ some "text") ∧
      agentLoop provider exec t (fuel + 1) s fin =
        ((agentLoop provider exec (t + 1) fuel
            (runTools exec s (provider t).toolCalls) (some tx)).1,
          (agentLoop provider exec (t + 1) fuel
            (runTools exec s (provider t).toolCalls) (some tx)).2.1,
          (agentLoop provider exec (t + 1) fuel
            (runTools exec s (provider t).toolCalls) (some tx)).2.2 + 1) := by
  refine ⟨(runTools_messages exec (provider t).toolCalls s h).1, ?_, ?_⟩
  · intro m hm b hb
    rw [List.mem_flatMap] at hm
    obtain ⟨tc, _, hmp⟩ := hm
    simp only [toolPairMsgs, List.mem_cons, List.not_mem_nil, or_false] at hmp
    rcases hmp with h1 | h1
    · subst h1
      rw [msgBlocks_assistantToolUseMsg] at hb
      simp only [List.mem_singleton] at hb
      subst hb
      rw [blockType_toolUseBlock]
      simp
    · subst h1
      rw [msgBlocks_toolResultMsg] at hb
      simp only [List.mem_singleton] at hb
      subst hb
      rw [blockType_toolResultBlock]
      simp
  · simp [agentLoop, htools, htext]

/-- Witness for C10 at a concrete response with both a tool call and text. -/
theorem agent_text_with_tools_fallback_witness :
    (runTools demoExec sessionNewEmpty (busyProvider 0).toolCalls).messages =
      sessionNewEmpty.messages ++
        (busyProvider 0).toolCalls.flatMap (toolPairMsgs demoExec) :=
  (agent_text_with_tools_fallback busyProvider demoExec sessionNewEmpty none 0 3
    "still going" (by decide) (by decide) (by decide)).1

end Seaclaw
